import Mathlib

/-!
Verification of `ariel::Fraction` (sources/Fraction.cpp, sources/Fraction.hpp).

A shallow embedding of the `Fraction` value type: its constructors, setters,
binary arithmetic operators, ordering, increment and decrement, mixed
multiplication and division, and stream extraction, with theorems about them.

Machine model. `int` is the 32-bit two's-complement integer: a value is an `Int`
between `INT_MIN` and `INT_MAX`, and `+`, `-`, `*`, unary `-` and `abs` reduce
their exact result with `wrap` (so `abs(INT_MIN) = INT_MIN`). `/` and `%`
truncate toward zero (`Int.tdiv`, `Int.tmod`); a zero divisor and the pair
`INT_MIN / -1` (also `INT_MIN % -1`) raise the hardware fault `Error.sigfpe`,
which is not a C++ exception. The three exception classes thrown by the
source are the other constructors of `Error`.

Floating point. `operator==` and the constructor `Fraction(float)` are embedded
over abstract records of the float operations they use (`FloatOps`,
`FloatConv`); what a theorem needs of them is stated where it is used.

Streams. `std::istream` is a list of unread characters with the flags `failbit`
and `eofbit` (`InStream`); formatted extraction of an `int`, `peek`, `ignore(1)`
and `fail()` follow the C++ standard for the default locale.
-/

namespace ariel

/-- Value of `std::numeric_limits<int>::max()`. -/
def INT_MAX : Int := 2147483647

/-- Value of `std::numeric_limits<int>::min()`. -/
def INT_MIN : Int := -2147483648

/-- Reduction of an exact integer to the 32-bit two's-complement range. -/
def wrap (x : Int) : Int := (x + 2147483648) % 4294967296 - 2147483648

/-- The exact integer `x` is representable as an `int`. -/
def inInt (x : Int) : Prop := INT_MIN ≤ x ∧ x ≤ INT_MAX

instance (x : Int) : Decidable (inInt x) := by unfold inInt; infer_instance

/-- Ways an operation can end without returning a value. -/
inductive Error where
  | invalid_argument
  | overflow_error
  | runtime_error
  | sigfpe
  deriving DecidableEq, Repr

/-- The library function `abs(int)`. -/
def iabs (x : Int) : Int := if x < 0 then wrap (-x) else x

/-- The operands on which the machine division instruction faults. -/
def divTraps (a b : Int) : Prop := b = 0 ∨ (a = INT_MIN ∧ b = -1)

instance (a b : Int) : Decidable (divTraps a b) := by unfold divTraps; infer_instance

/-- The operator `/` on `int`. -/
def idiv (a b : Int) : Except Error Int :=
  if divTraps a b then .error .sigfpe else .ok (Int.tdiv a b)

/-- The data members `numerator` and `denominator` of `class Fraction`. -/
structure Fraction where
  numerator : Int
  denominator : Int
  deriving DecidableEq, Repr

/-- The helper `Fraction::gcd`: `gcd(0, d) = d`, otherwise `gcd(d % n, n)`,
where `d % n` faults on the operands of `divTraps` and is `Int.tmod d n`
otherwise. -/
def gcd (numerator denominator : Int) : Except Error Int :=
  if numerator = 0 then .ok denominator
  else if divTraps denominator numerator then .error .sigfpe
  else gcd (Int.tmod denominator numerator) numerator
termination_by numerator.natAbs
decreasing_by
  rename_i h _
  have h0 : 0 < numerator.natAbs := Int.natAbs_pos.mpr h
  have hm : (Int.tmod denominator numerator).natAbs = denominator.natAbs % numerator.natAbs := by
    cases denominator <;> cases numerator <;>
      simp only [Int.tmod, Int.natAbs_ofNat, Int.natAbs_negSucc, Int.natAbs_neg,
        Nat.succ_eq_add_one] <;> rfl
  rw [hm]
  exact Nat.mod_lt _ h0

/-- The constructor `Fraction::Fraction(int numerator, int denominator)`. -/
def Fraction.ctor (numerator denominator : Int) : Except Error Fraction :=
  if denominator = 0 then .error .invalid_argument
  else
    match gcd numerator denominator with
    | .error e => .error e
    | .ok g =>
      let gcdValue := iabs g
      match idiv numerator gcdValue, idiv denominator gcdValue with
      | .ok qn, .ok qd =>
        .ok { numerator :=
                if xor (decide (numerator < 0)) (decide (denominator < 0))
                then wrap (-(iabs qn)) else iabs qn,
              denominator := iabs qd }
      | .error e, _ => .error e
      | _, .error e => .error e

/-- One disjunct `abs(x) > INT_MAX / abs(y)` of the overflow pre-check. -/
def exceeds (x y : Int) : Except Error Bool :=
  match idiv INT_MAX (iabs y) with
  | .ok q => .ok (decide (iabs x > q))
  | .error e => .error e

/-- The operator `||` on operands that may fault: the right operand is
evaluated only when the left one is false. -/
def orElse (p q : Except Error Bool) : Except Error Bool :=
  match p with
  | .ok true => .ok true
  | .ok false => q
  | .error e => .error e

/-- The operator `Fraction::operator+`. -/
def Fraction.add (self other : Fraction) : Except Error Fraction :=
  let guard : Except Error Bool :=
    if self.numerator ≠ 0 ∧ other.numerator ≠ 0 then
      orElse (exceeds self.numerator other.denominator)
        (orElse (exceeds self.denominator other.numerator)
          (exceeds self.denominator other.denominator))
    else .ok false
  match guard with
  | .error e => .error e
  | .ok true => .error .overflow_error
  | .ok false =>
    let num1 := wrap (self.numerator * other.denominator)
    let num2 := wrap (other.numerator * self.denominator)
    let new_denominator := wrap (self.denominator * other.denominator)
    if (num1 < 0 ∧ num2 < 0 ∧ num1 < wrap (INT_MIN - num2)) ∨
        (num1 > 0 ∧ num2 > 0 ∧ num1 > wrap (INT_MAX - num2)) then
      .error .overflow_error
    else
      let new_numerator := wrap (num1 + num2)
      Fraction.ctor new_numerator new_denominator

/-- The operator `Fraction::operator-`. -/
def Fraction.sub (self other : Fraction) : Except Error Fraction :=
  let guard : Except Error Bool :=
    if self.numerator ≠ 0 ∧ other.numerator ≠ 0 then
      orElse (exceeds self.numerator other.denominator)
        (orElse (exceeds self.denominator other.numerator)
          (exceeds self.denominator other.denominator))
    else .ok false
  match guard with
  | .error e => .error e
  | .ok true => .error .overflow_error
  | .ok false =>
    let num1 := wrap (self.numerator * other.denominator)
    let num2 := wrap (other.numerator * self.denominator)
    let new_denominator := wrap (self.denominator * other.denominator)
    if (num1 < 0 ∧ num2 > 0 ∧ num1 < wrap (INT_MIN + num2)) ∨
        (num1 > 0 ∧ num2 < 0 ∧ num1 > wrap (INT_MAX + num2)) then
      .error .overflow_error
    else
      let new_numerator := wrap (num1 - num2)
      Fraction.ctor new_numerator new_denominator

/-- The operator `Fraction::operator*`. -/
def Fraction.mul (self other : Fraction) : Except Error Fraction :=
  let guard : Except Error Bool :=
    if self.numerator ≠ 0 ∧ other.numerator ≠ 0 then
      orElse (exceeds self.numerator other.numerator)
        (exceeds self.denominator other.denominator)
    else .ok false
  match guard with
  | .error e => .error e
  | .ok true => .error .overflow_error
  | .ok false =>
    let new_numerator := wrap (self.numerator * other.numerator)
    let new_denominator := wrap (self.denominator * other.denominator)
    Fraction.ctor new_numerator new_denominator

/-- The operator `Fraction::operator/`. -/
def Fraction.div (self other : Fraction) : Except Error Fraction :=
  if other.numerator = 0 then .error .runtime_error
  else
    let guard : Except Error Bool :=
      if self.numerator ≠ 0 ∧ other.numerator ≠ 0 then
        orElse (exceeds self.numerator other.denominator)
          (exceeds self.denominator other.numerator)
      else .ok false
    match guard with
    | .error e => .error e
    | .ok true => .error .overflow_error
    | .ok false =>
      let new_numerator := wrap (self.numerator * other.denominator)
      let new_denominator := wrap (self.denominator * other.numerator)
      Fraction.ctor new_numerator new_denominator


/-- Lowest terms with a positive denominator: `denominator > 0` and
`gcd(|numerator|, denominator) = 1`. -/
def Fraction.Normalized (f : Fraction) : Prop :=
  0 < f.denominator ∧ Nat.gcd f.numerator.natAbs f.denominator.natAbs = 1

instance (f : Fraction) : Decidable f.Normalized := by
  unfold Fraction.Normalized; infer_instance

/-- The exact integer `x` has magnitude at most `INT_MAX`. -/
def magFits (x : Int) : Prop := -INT_MAX ≤ x ∧ x ≤ INT_MAX

instance (x : Int) : Decidable (magFits x) := by unfold magFits; infer_instance

/-- The `float` operations that `operator==` uses: the conversion
`(float)i`, `/`, `-`, `>` and the test `x < 0.001`. -/
structure FloatOps (F : Type) where
  ofInt : Int → F
  div : F → F → F
  sub : F → F → F
  gt : F → F → Bool
  ltTol : F → Bool

/-- The float ratio `(float)numerator / denominator`. -/
def Fraction.quotient {F : Type} (ops : FloatOps F) (self : Fraction) : F :=
  ops.div (ops.ofInt self.numerator) (ops.ofInt self.denominator)

/-- The operator `Fraction::operator==`. -/
def Fraction.eq {F : Type} (ops : FloatOps F) (self other : Fraction) : Bool :=
  let num1 := self.quotient ops
  let num2 := other.quotient ops
  if ops.gt num1 num2 then ops.ltTol (ops.sub num1 num2)
  else ops.ltTol (ops.sub num2 num1)

/-- Exact rational arithmetic as an instance of the float operations, with
the tolerance `1/1000`. -/
def exactOps : FloatOps Rat where
  ofInt := fun i => (i : Rat)
  div := fun x y => x / y
  sub := fun x y => x - y
  gt := fun x y => decide (x > y)
  ltTol := fun x => decide (x < 1 / 1000)

/-- The operator `Fraction::operator>`. -/
def Fraction.gt (self other : Fraction) : Bool :=
  decide (wrap (self.numerator * other.denominator) > wrap (other.numerator * self.denominator))

/-- The operator `Fraction::operator<`. -/
def Fraction.lt (self other : Fraction) : Bool :=
  decide (wrap (self.numerator * other.denominator) < wrap (other.numerator * self.denominator))

/-- The pre-increment `Fraction::operator++()`: the returned copy, then the
object after the call. -/
def Fraction.preInc (self : Fraction) : Fraction × Fraction :=
  let self1 : Fraction := { self with numerator := wrap (self.numerator + self.denominator) }
  (self1, self1)

/-- The post-increment `Fraction::operator++(int)`: the returned copy, then
the object after the call. -/
def Fraction.postInc (self : Fraction) : Fraction × Fraction :=
  let temp := self
  (temp, self.preInc.2)

/-- The pre-decrement `Fraction::operator--()`: the returned copy, then the
object after the call. -/
def Fraction.preDec (self : Fraction) : Fraction × Fraction :=
  let self1 : Fraction := { self with numerator := wrap (self.numerator - self.denominator) }
  (self1, self1)

/-- The post-decrement `Fraction::operator--(int)`: the returned copy, then
the object after the call. -/
def Fraction.postDec (self : Fraction) : Fraction × Fraction :=
  let temp := self
  (temp, self.preDec.2)

/-- The setter `Fraction::setNumerator`. -/
def Fraction.setNumerator (self : Fraction) (num : Int) : Fraction :=
  { self with numerator := num }

/-- The setter `Fraction::setDenominator`: the test reads the data member,
not the argument. -/
def Fraction.setDenominator (self : Fraction) (num : Int) : Except Error Fraction :=
  if self.denominator = 0 then .error .invalid_argument
  else .ok { self with denominator := num }

/-- The `float` operations that the constructor `Fraction(float)` uses: the
test `number == 0`, the product `number * 1000`, the truncating conversion
`(int)x`, the conversion of an `int` to `float`, and the quotient
`number / gcdValue` of a `float` by an `int`. -/
structure FloatConv (F : Type) where
  isZero : F → Bool
  mul1000 : F → F
  toInt : F → Int
  ofInt : Int → F
  divInt : F → Int → F

/-- The constructor `Fraction::Fraction(float number)`. The parameter is
overwritten with the truncated product, converted back to `float`; it is
converted to `int` again as the argument of `gcd`, and the numerator is the
float quotient converted to `int`. -/
def Fraction.ofFloat {F : Type} (c : FloatConv F) (number : F) : Except Error Fraction :=
  if c.isZero number then .ok { numerator := 0, denominator := 1 }
  else
    let number1 := c.ofInt (c.toInt (c.mul1000 number))
    match gcd (c.toInt number1) 1000 with
    | .error e => .error e
    | .ok g =>
      let gcdValue := iabs g
      match idiv 1000 gcdValue with
      | .error e => .error e
      | .ok qd =>
        .ok { numerator := c.toInt (c.divInt number1 gcdValue), denominator := qd }

/-- The free operator `ariel::operator/(float, const Fraction&)`. -/
def floatDiv {F : Type} (c : FloatConv F) (number : F) (other : Fraction) :
    Except Error Fraction :=
  match Fraction.ofFloat c number with
  | .error e => .error e
  | .ok num =>
    let new_numerator := wrap (num.numerator * other.denominator)
    let new_denominator := wrap (num.denominator * other.numerator)
    Fraction.ctor new_numerator new_denominator

/-- Exact rational arithmetic as an instance of the constructor's float
operations. -/
def exactConv : FloatConv Rat where
  isZero := fun x => decide (x = 0)
  mul1000 := fun x => x * 1000
  toInt := fun x => Int.tdiv x.num x.den
  ofInt := fun i => (i : Rat)
  divInt := fun x g => x / (g : Rat)

/-- An input stream: the characters not yet read and the state flags
`failbit` and `eofbit`. -/
structure InStream where
  buf : List Char
  failbit : Bool
  eofbit : Bool
  deriving DecidableEq, Repr

/-- The member `good()`: no state flag is set. -/
def InStream.good (s : InStream) : Bool := !s.failbit && !s.eofbit

/-- The white space of the default locale: space and the characters 9 to 13. -/
def isSpace (c : Char) : Bool := c = ' ' || (9 ≤ c.toNat && c.toNat ≤ 13)

/-- The value of a run of decimal digits. -/
def digitsVal (ds : List Char) : Nat :=
  ds.foldl (fun acc c => 10 * acc + (c.toNat - 48)) 0

/-- The formatted extraction `ins >> int` of the standard library, in the
default locale: white space is skipped, an optional sign and the longest run
of digits are read, and a value outside the int range is replaced by the
nearest limit with `failbit` set. The second component is the value written,
or `none` when nothing is written. -/
def InStream.extractInt (s : InStream) : InStream × Option Int :=
  if !s.good then ({ s with failbit := true }, none)
  else
    match s.buf.dropWhile isSpace with
    | [] => ({ buf := [], failbit := true, eofbit := true }, none)
    | c :: t =>
      let body := if c = '-' ∨ c = '+' then t else c :: t
      let ds := body.takeWhile Char.isDigit
      let tail := body.dropWhile Char.isDigit
      if ds.isEmpty then
        ({ buf := tail, failbit := true, eofbit := tail.isEmpty }, some 0)
      else
        let v : Int := if c = '-' then -(digitsVal ds : Int) else (digitsVal ds : Int)
        if v > INT_MAX then
          ({ buf := tail, failbit := true, eofbit := tail.isEmpty }, some INT_MAX)
        else if v < INT_MIN then
          ({ buf := tail, failbit := true, eofbit := tail.isEmpty }, some INT_MIN)
        else
          ({ buf := tail, failbit := false, eofbit := tail.isEmpty }, some v)

/-- The member `peek()`: the next character, or `none` at the end of the
input or when the stream is not good. -/
def InStream.peek (s : InStream) : InStream × Option Char :=
  if !s.good then ({ s with failbit := true }, none)
  else
    match s.buf with
    | [] => ({ s with eofbit := true }, none)
    | c :: _ => (s, some c)

/-- The call `ignore(1)`: one character is discarded. -/
def InStream.ignore1 (s : InStream) : InStream :=
  if !s.good then { s with failbit := true }
  else
    match s.buf with
    | [] => { s with eofbit := true }
    | _ :: t => { s with buf := t }

/-- The stream extraction `ariel::operator>>(std::istream&, Fraction&)`. The
local `int denominator` is not initialised: `uninit` is the value it holds
when the second extraction writes nothing. -/
def Fraction.extract (ins : InStream) (fraction : Fraction) (uninit : Int) :
    Except Error (InStream × Fraction) :=
  let r1 := ins.extractInt
  let fraction1 : Fraction :=
    match r1.2 with
    | some n => { fraction with numerator := n }
    | none => fraction
  let r2 := r1.1.peek
  if r2.2 = some '.' then .error .runtime_error
  else
    let ins3 := r2.1.ignore1
    if ins3.failbit then .error .runtime_error
    else
      let r4 := ins3.extractInt
      let denominator : Int :=
        match r4.2 with
        | some d => d
        | none => uninit
      if denominator = 0 then .error .runtime_error
      else .ok (r4.1, { fraction1 with denominator := denominator })

/-- The text of a decimal integer: an optional minus sign, then digits. -/
def intText (neg : Bool) (ds : List Char) : List Char :=
  if neg then '-' :: ds else ds

/-- The integer that the text `intText neg ds` denotes. -/
def intVal (neg : Bool) (ds : List Char) : Int :=
  if neg then -(digitsVal ds : Int) else (digitsVal ds : Int)

/-- The free operator `ariel::operator*(float, const Fraction&)`. -/
def floatMul {F : Type} (c : FloatConv F) (number : F) (other : Fraction) :
    Except Error Fraction :=
  match Fraction.ofFloat c number with
  | .error e => .error e
  | .ok num =>
    let new_numerator := wrap (num.numerator * other.numerator)
    let new_denominator := wrap (num.denominator * other.denominator)
    Fraction.ctor new_numerator new_denominator

/-- The helper `Fraction::gcd` run with a bound on the depth of the
recursion: `none` when the bound is reached before the helper ends. -/
def gcdFuel : Nat → Int → Int → Option (Except Error Int)
  | 0, _, _ => none
  | fuel + 1, numerator, denominator =>
    if numerator = 0 then some (.ok denominator)
    else if divTraps denominator numerator then some (.error .sigfpe)
    else gcdFuel fuel (Int.tmod denominator numerator) numerator

/-! ## Machine arithmetic -/

theorem wrap_eq (x : Int) (h : inInt x) : wrap x = x := by
  unfold inInt INT_MIN INT_MAX at h
  unfold wrap
  omega

theorem wrap_inInt (x : Int) : inInt (wrap x) := by
  unfold inInt INT_MIN INT_MAX wrap
  omega

theorem iabs_eq_natAbs (x : Int) (h : x.natAbs ≤ 2147483647) : iabs x = (x.natAbs : Int) := by
  unfold iabs wrap
  split <;> omega

theorem natAbs_tmod (d n : Int) : (Int.tmod d n).natAbs = d.natAbs % n.natAbs := by
  cases d <;> cases n <;>
    simp only [Int.tmod, Int.natAbs_ofNat, Int.natAbs_negSucc, Int.natAbs_neg,
      Nat.succ_eq_add_one] <;> rfl

/-! ## The gcd helper -/

theorem gcd_zero (d : Int) : gcd 0 d = .ok d := by
  rw [gcd]; simp

theorem gcd_step (n d : Int) (h : n ≠ 0) (ht : ¬ divTraps d n) :
    gcd n d = gcd (Int.tmod d n) n := by
  rw [gcd]; simp [h, ht]

theorem gcd_trap (n d : Int) (h : n ≠ 0) (ht : divTraps d n) :
    gcd n d = .error .sigfpe := by
  rw [gcd]; simp [h, ht]

/-- One unfolding of `gcd` at a concrete pair whose remainder is `r`. -/
theorem gcd_eval (n d r : Int) (h : n ≠ 0) (ht : ¬ divTraps d n) (hr : Int.tmod d n = r) :
    gcd n d = gcd r n := by
  rw [gcd_step n d h ht, hr]

/-- Away from `INT_MIN` the helper returns, and up to sign its result is the
greatest common divisor of the magnitudes. -/
theorem gcd_ok (n d : Int) (hn : n.natAbs < 2147483648)
    (hnd : ¬ (d = INT_MIN ∧ n = -1)) :
    ∃ g, gcd n d = .ok g ∧ g.natAbs = Nat.gcd n.natAbs d.natAbs := by
  induction n, d using gcd.induct with
  | case1 d => exact ⟨d, gcd_zero d, by simp⟩
  | case2 n d h ht =>
    exfalso
    rcases ht with ht | ht
    · exact h ht
    · exact hnd ht
  | case3 n d h ht ih =>
    have hr := natAbs_tmod d n
    have hpos : 0 < n.natAbs := Int.natAbs_pos.mpr h
    have hlt : d.natAbs % n.natAbs < n.natAbs := Nat.mod_lt _ hpos
    obtain ⟨g, hg, hgn⟩ := ih (by omega) (by
      rintro ⟨h1, _⟩
      rw [h1] at hn
      simp [INT_MIN] at hn)
    refine ⟨g, ?_, ?_⟩
    · rw [gcd_step n d h ht, hg]
    · rw [hgn, hr]
      exact (Nat.gcd_rec n.natAbs d.natAbs).symm


/-! ## The integer constructor -/

theorem ctor_unfold (n d g : Int) (hd : d ≠ 0) (hg : gcd n d = .ok g)
    (h1 : ¬ divTraps n (iabs g)) (h2 : ¬ divTraps d (iabs g)) :
    Fraction.ctor n d = .ok
      { numerator :=
          if xor (decide (n < 0)) (decide (d < 0))
          then wrap (-(iabs (Int.tdiv n (iabs g)))) else iabs (Int.tdiv n (iabs g)),
        denominator := iabs (Int.tdiv d (iabs g)) } := by
  simp [Fraction.ctor, hd, hg, idiv, h1, h2]

/-- The stored pair in terms of the magnitudes and their greatest common divisor. -/
theorem ctor_eq (n d : Int) (hn : n.natAbs ≤ 2147483647) (hd : d.natAbs ≤ 2147483647)
    (hd0 : d ≠ 0) :
    Fraction.ctor n d = .ok
      { numerator :=
          if xor (decide (n < 0)) (decide (d < 0))
          then -((n.natAbs / Nat.gcd n.natAbs d.natAbs : Nat) : Int)
          else ((n.natAbs / Nat.gcd n.natAbs d.natAbs : Nat) : Int),
        denominator := ((d.natAbs / Nat.gcd n.natAbs d.natAbs : Nat) : Int) } := by
  obtain ⟨g, hg, hgn⟩ := gcd_ok n d (by omega) (by
    rintro ⟨h1, _⟩
    rw [h1] at hd
    simp [INT_MIN] at hd)
  have hdpos : 0 < d.natAbs := Int.natAbs_pos.mpr hd0
  have hGpos : 0 < Nat.gcd n.natAbs d.natAbs := Nat.gcd_pos_of_pos_right _ hdpos
  have hGle : Nat.gcd n.natAbs d.natAbs ≤ d.natAbs := Nat.gcd_le_right _ hdpos
  have hia : iabs g = ((Nat.gcd n.natAbs d.natAbs : Nat) : Int) := by
    rw [iabs_eq_natAbs g (by omega), hgn]
  have hqn : (Int.tdiv n (iabs g)).natAbs = n.natAbs / Nat.gcd n.natAbs d.natAbs := by
    rw [Int.natAbs_tdiv, hia, Int.natAbs_ofNat]; rfl
  have hqd : (Int.tdiv d (iabs g)).natAbs = d.natAbs / Nat.gcd n.natAbs d.natAbs := by
    rw [Int.natAbs_tdiv, hia, Int.natAbs_ofNat]; rfl
  have hAle : n.natAbs / Nat.gcd n.natAbs d.natAbs ≤ n.natAbs := Nat.div_le_self _ _
  have hBle : d.natAbs / Nat.gcd n.natAbs d.natAbs ≤ d.natAbs := Nat.div_le_self _ _
  have ht1 : ¬ divTraps n (iabs g) := by
    unfold divTraps; rw [hia]; omega
  have ht2 : ¬ divTraps d (iabs g) := by
    unfold divTraps; rw [hia]; omega
  rw [ctor_unfold n d g hd0 hg ht1 ht2]
  rw [iabs_eq_natAbs (Int.tdiv n (iabs g)) (by omega),
    iabs_eq_natAbs (Int.tdiv d (iabs g)) (by omega), hqn, hqd]
  have hw : wrap (-((n.natAbs / Nat.gcd n.natAbs d.natAbs : Nat) : Int))
      = -((n.natAbs / Nat.gcd n.natAbs d.natAbs : Nat) : Int) := by
    apply wrap_eq
    unfold inInt INT_MIN INT_MAX
    omega
  rw [hw]


/-- What the constructor stores when neither argument is `INT_MIN`: a pair in
lowest terms with a positive denominator and the value `n / d`. -/
theorem ctor_spec (n d : Int) (hn : n.natAbs ≤ 2147483647) (hd : d.natAbs ≤ 2147483647)
    (hd0 : d ≠ 0) :
    ∃ f, Fraction.ctor n d = .ok f ∧ f.Normalized ∧
      f.numerator * d = n * f.denominator ∧
      f.numerator.natAbs ≤ n.natAbs ∧ f.denominator.natAbs ≤ d.natAbs := by
  refine ⟨_, ctor_eq n d hn hd hd0, ?_⟩
  have hdpos : 0 < d.natAbs := Int.natAbs_pos.mpr hd0
  have hGpos : 0 < Nat.gcd n.natAbs d.natAbs := Nat.gcd_pos_of_pos_right _ hdpos
  have hA : n.natAbs / Nat.gcd n.natAbs d.natAbs * Nat.gcd n.natAbs d.natAbs = n.natAbs :=
    Nat.div_mul_cancel (Nat.gcd_dvd_left _ _)
  have hB : d.natAbs / Nat.gcd n.natAbs d.natAbs * Nat.gcd n.natAbs d.natAbs = d.natAbs :=
    Nat.div_mul_cancel (Nat.gcd_dvd_right _ _)
  have hcop : Nat.gcd (n.natAbs / Nat.gcd n.natAbs d.natAbs)
      (d.natAbs / Nat.gcd n.natAbs d.natAbs) = 1 :=
    Nat.coprime_div_gcd_div_gcd hGpos
  have hAle : n.natAbs / Nat.gcd n.natAbs d.natAbs ≤ n.natAbs := Nat.div_le_self _ _
  have hBle : d.natAbs / Nat.gcd n.natAbs d.natAbs ≤ d.natAbs := Nat.div_le_self _ _
  have hBpos : 0 < d.natAbs / Nat.gcd n.natAbs d.natAbs :=
    Nat.div_pos (Nat.gcd_le_right _ hdpos) hGpos
  generalize Nat.gcd n.natAbs d.natAbs = G at *
  generalize hAdef : n.natAbs / G = A at *
  generalize hBdef : d.natAbs / G = B at *
  have hcross : (A : Int) * (d.natAbs : Int) = (n.natAbs : Int) * (B : Int) := by
    rw [← hA, ← hB]; push_cast; ring
  refine ⟨⟨?_, ?_⟩, ?_, ?_, ?_⟩
  · show (0 : Int) < (B : Int)
    exact_mod_cast hBpos
  · show Nat.gcd (Int.natAbs _) (Int.natAbs (B : Int)) = 1
    rw [Int.natAbs_ofNat]
    split
    · rw [Int.natAbs_neg, Int.natAbs_ofNat]; exact hcop
    · rw [Int.natAbs_ofNat]; exact hcop
  · show (if xor (decide (n < 0)) (decide (d < 0)) then -(A : Int) else (A : Int)) * d
      = n * (B : Int)
    by_cases h1 : n < 0 <;> by_cases h2 : d < 0
    · have e1 : n = -(n.natAbs : Int) := by omega
      have e2 : d = -(d.natAbs : Int) := by omega
      simp only [h1, h2, decide_True, Bool.xor_self, Bool.false_eq_true, if_false]
      linear_combination (A : Int) * e2 - (B : Int) * e1 - hcross
    · have e1 : n = -(n.natAbs : Int) := by omega
      have e2 : d = (d.natAbs : Int) := by omega
      simp only [h1, h2, decide_True, decide_False, Bool.xor_false, if_true]
      linear_combination -(A : Int) * e2 - (B : Int) * e1 - hcross
    · have e1 : n = (n.natAbs : Int) := by omega
      have e2 : d = -(d.natAbs : Int) := by omega
      simp only [h1, h2, decide_True, decide_False, Bool.false_xor, if_true]
      linear_combination -(A : Int) * e2 - (B : Int) * e1 + hcross
    · have e1 : n = (n.natAbs : Int) := by omega
      have e2 : d = (d.natAbs : Int) := by omega
      simp only [h1, h2, decide_False, Bool.xor_self, Bool.false_eq_true, if_false]
      linear_combination (A : Int) * e2 - (B : Int) * e1 + hcross
  · show Int.natAbs (if xor (decide (n < 0)) (decide (d < 0)) then -(A : Int) else (A : Int))
      ≤ n.natAbs
    split
    · rw [Int.natAbs_neg, Int.natAbs_ofNat]; exact hAle
    · rw [Int.natAbs_ofNat]; exact hAle
  · show Int.natAbs (B : Int) ≤ d.natAbs
    rw [Int.natAbs_ofNat]; exact hBle


/-- The helper can only end early by the division fault. -/
theorem gcd_error (n d : Int) (e : Error) (h : gcd n d = .error e) : e = .sigfpe := by
  induction n, d using gcd.induct with
  | case1 d => rw [gcd_zero] at h; cases h
  | case2 n d h0 ht => rw [gcd_trap n d h0 ht] at h; cases h; rfl
  | case3 n d h0 ht ih => rw [gcd_step n d h0 ht] at h; exact ih h

theorem idiv_error (a b : Int) (e : Error) (h : idiv a b = .error e) : e = .sigfpe := by
  unfold idiv at h
  split at h
  · cases h; rfl
  · cases h

/-- The constructor throws `invalid_argument` exactly for a zero denominator;
its only other early end is the division fault. -/
theorem ctor_error (n d : Int) (e : Error) (h : Fraction.ctor n d = .error e) :
    (e = .invalid_argument ∧ d = 0) ∨ (e = .sigfpe ∧ d ≠ 0) := by
  unfold Fraction.ctor at h
  split at h
  · cases h; left; exact ⟨rfl, by assumption⟩
  · right
    refine ⟨?_, by assumption⟩
    split at h
    · rename_i e1 hg
      cases h
      exact gcd_error n d _ hg
    · rename_i g hg
      dsimp only at h
      rcases h1 : idiv n (iabs g) with e1 | qn
      · rw [h1] at h
        simp only [Except.error.injEq] at h
        rw [← h]
        exact idiv_error _ _ _ h1
      · rcases h2 : idiv d (iabs g) with e2 | qd
        · rw [h1, h2] at h
          simp only [Except.error.injEq] at h
          rw [← h]
          exact idiv_error _ _ _ h2
        · rw [h1, h2] at h
          cases h

theorem ctor_zero_den (n : Int) : Fraction.ctor n 0 = .error .invalid_argument := by
  simp [Fraction.ctor]

/-- The helper returns on every pair of ints except the two on which it
evaluates `INT_MIN % -1`. -/
theorem gcd_total (n d : Int) (hn : inInt n) (hd : inInt d)
    (h1 : ¬ (n = INT_MIN ∧ d = -1)) (h2 : ¬ (n = -1 ∧ d = INT_MIN)) :
    ∃ g, gcd n d = .ok g ∧ g.natAbs = Nat.gcd n.natAbs d.natAbs := by
  unfold inInt INT_MIN INT_MAX at hn hd
  by_cases hmin : n = INT_MIN
  · have hne : n ≠ 0 := by rw [hmin]; decide
    have ht : ¬ divTraps d n := by
      unfold divTraps; rw [hmin]; unfold INT_MIN; omega
    have hr := natAbs_tmod d n
    have hnabs : n.natAbs = 2147483648 := by rw [hmin]; rfl
    obtain ⟨g, hg, hgn⟩ := gcd_ok (Int.tmod d n) n (by
        rw [hr, hnabs]; exact Nat.mod_lt _ (by decide)) (by
        rintro ⟨_, h3⟩
        have h4 : (Int.tmod d n).natAbs = 1 := by rw [h3]; rfl
        rw [hr, hnabs] at h4
        have h5 : d.natAbs = 1 := by omega
        have h6 : d = 1 := by
          have : d ≠ -1 := fun hc => h1 ⟨hmin, hc⟩
          omega
        rw [h6] at h3
        have := Int.tmod_nonneg n (show (0 : Int) ≤ 1 by decide)
        omega)
    refine ⟨g, ?_, ?_⟩
    · rw [gcd_step n d hne ht, hg]
    · rw [hgn, hr]
      exact (Nat.gcd_rec n.natAbs d.natAbs).symm
  · exact gcd_ok n d (by unfold INT_MIN at hmin; omega) (fun hc => by
      apply h2
      exact ⟨hc.2, hc.1⟩)

theorem gcd_one_INT_MIN : gcd 1 INT_MIN = .ok 1 := by
  rw [gcd_eval 1 INT_MIN 0 (by decide) (by decide) (by decide), gcd_zero]

theorem gcd_INT_MIN_neg_three : gcd INT_MIN (-3) = .ok (-1) := by
  rw [gcd_eval INT_MIN (-3) (-3) (by decide) (by decide) (by decide),
    gcd_eval (-3) INT_MIN (-2) (by decide) (by decide) (by decide),
    gcd_eval (-2) (-3) (-1) (by decide) (by decide) (by decide),
    gcd_eval (-1) (-2) 0 (by decide) (by decide) (by decide), gcd_zero]

theorem ctor_one_INT_MIN : Fraction.ctor 1 INT_MIN = .ok ⟨-1, INT_MIN⟩ := by
  rw [ctor_unfold 1 INT_MIN 1 (by decide) gcd_one_INT_MIN (by decide) (by decide)]
  rfl

theorem ctor_INT_MIN_neg_three : Fraction.ctor INT_MIN (-3) = .ok ⟨INT_MIN, 3⟩ := by
  rw [ctor_unfold INT_MIN (-3) (-1) (by decide) gcd_INT_MIN_neg_three (by decide) (by decide)]
  rfl


/-! ## Normal forms are unique -/

/-- Two fractions in lowest terms with positive denominators and equal
cross products are the same pair. -/
theorem normalized_unique (f g : Fraction) (hf : f.Normalized) (hg : g.Normalized)
    (h : f.numerator * g.denominator = g.numerator * f.denominator) : f = g := by
  obtain ⟨fn, fd⟩ := f
  obtain ⟨gn, gd⟩ := g
  obtain ⟨hfd, hfc⟩ := hf
  obtain ⟨hgd, hgc⟩ := hg
  simp only at hfd hfc hgd hgc h
  have hfc' : Int.gcd fd fn = 1 := by rw [Int.gcd_comm]; exact hfc
  have hgc' : Int.gcd gd gn = 1 := by rw [Int.gcd_comm]; exact hgc
  have h1 : fd ∣ gd := by
    apply Int.dvd_of_dvd_mul_right_of_gcd_one _ hfc'
    exact ⟨gn, by linear_combination h⟩
  have h2 : gd ∣ fd := by
    apply Int.dvd_of_dvd_mul_right_of_gcd_one _ hgc'
    exact ⟨fn, by linear_combination -h⟩
  have hd : fd = gd := Int.dvd_antisymm (le_of_lt hfd) (le_of_lt hgd) h1 h2
  subst hd
  have hn : fn = gn := by
    have hne : fd ≠ 0 := ne_of_gt hfd
    exact mul_right_cancel₀ hne h
  subst hn
  rfl

/-- Two normalized fractions that stand for quotients `x / y` and
`x' / y'` of equal value are the same pair. -/
theorem normalized_same_value (f g : Fraction) (x y x' y' : Int)
    (hf : f.Normalized) (hg : g.Normalized) (hy : y ≠ 0) (hy' : y' ≠ 0)
    (hfv : f.numerator * y = x * f.denominator)
    (hgv : g.numerator * y' = x' * g.denominator)
    (hxy : x * y' = x' * y) : f = g := by
  apply normalized_unique f g hf hg
  have hyy : y * y' ≠ 0 := mul_ne_zero hy hy'
  apply mul_right_cancel₀ hyy
  linear_combination g.denominator * y' * hfv - f.denominator * y * hgv
    + f.denominator * g.denominator * hxy


/-! ## The overflow pre-check -/

/-- The pre-check disjunct is false when the product of the magnitudes fits. -/
theorem exceeds_false (x y : Int) (hx0 : x ≠ 0) (hy0 : y ≠ 0)
    (h : x.natAbs * y.natAbs ≤ 2147483647) : exceeds x y = .ok false := by
  have hxpos : 0 < x.natAbs := Int.natAbs_pos.mpr hx0
  have hypos : 0 < y.natAbs := Int.natAbs_pos.mpr hy0
  have hy : y.natAbs ≤ 2147483647 := le_trans (Nat.le_mul_of_pos_left _ hxpos) h
  have hx : x.natAbs ≤ 2147483647 := le_trans (Nat.le_mul_of_pos_right _ hypos) h
  have ht : ¬ divTraps INT_MAX (iabs y) := by
    unfold divTraps; rw [iabs_eq_natAbs y hy]; omega
  have hq : Int.tdiv INT_MAX (y.natAbs : Int) = INT_MAX / (y.natAbs : Int) :=
    Int.tdiv_eq_ediv (by decide) (by omega)
  have hle : (x.natAbs : Int) ≤ INT_MAX / (y.natAbs : Int) := by
    apply Int.le_ediv_of_mul_le (by omega)
    unfold INT_MAX
    exact_mod_cast h
  unfold exceeds idiv
  rw [if_neg ht, iabs_eq_natAbs y hy, iabs_eq_natAbs x hx, hq]
  simp only [gt_iff_lt, decide_eq_false_iff_not, not_lt, Except.ok.injEq]
  exact hle

/-- Bounds on the factors of a product of non-zero ints that fits. -/
theorem natAbs_le_of_mul (x y : Int) (hy0 : y ≠ 0) (h : (x * y).natAbs ≤ 2147483647) :
    x.natAbs ≤ 2147483647 := by
  rw [Int.natAbs_mul] at h
  exact le_trans (Nat.le_mul_of_pos_right _ (Int.natAbs_pos.mpr hy0)) h

theorem inInt_of_natAbs (x : Int) (h : x.natAbs ≤ 2147483647) : inInt x := by
  unfold inInt INT_MIN INT_MAX; omega

/-! ## Binary operators as one call of the constructor -/

/-- When the cross products, the product of the denominators and the sum fit,
`operator+` passes the exact sum and product to the constructor. -/
theorem add_eq_ctor (a b : Fraction) (ha : 0 < a.denominator) (hb : 0 < b.denominator)
    (h1 : (a.numerator * b.denominator).natAbs ≤ 2147483647)
    (h2 : (b.numerator * a.denominator).natAbs ≤ 2147483647)
    (h3 : (a.denominator * b.denominator).natAbs ≤ 2147483647)
    (h4 : (a.numerator * b.denominator + b.numerator * a.denominator).natAbs ≤ 2147483647) :
    a.add b = Fraction.ctor (a.numerator * b.denominator + b.numerator * a.denominator)
      (a.denominator * b.denominator) := by
  have had : a.denominator ≠ 0 := ne_of_gt ha
  have hbd : b.denominator ≠ 0 := ne_of_gt hb
  have hg : (if a.numerator ≠ 0 ∧ b.numerator ≠ 0 then
      orElse (exceeds a.numerator b.denominator)
        (orElse (exceeds a.denominator b.numerator)
          (exceeds a.denominator b.denominator))
      else .ok false) = .ok false := by
    split
    · rename_i hnz
      rw [exceeds_false _ _ hnz.1 hbd (by rw [← Int.natAbs_mul]; exact h1),
        exceeds_false _ _ had hnz.2 (by rw [← Int.natAbs_mul, mul_comm]; exact h2),
        exceeds_false _ _ had hbd (by rw [← Int.natAbs_mul]; exact h3)]
      rfl
    · rfl
  unfold Fraction.add
  simp only [hg]
  rw [wrap_eq _ (inInt_of_natAbs _ h1), wrap_eq _ (inInt_of_natAbs _ h2),
    wrap_eq _ (inInt_of_natAbs _ h3)]
  have hsum : wrap (a.numerator * b.denominator + b.numerator * a.denominator)
      = a.numerator * b.denominator + b.numerator * a.denominator :=
    wrap_eq _ (inInt_of_natAbs _ h4)
  rw [hsum]
  rw [if_neg]
  generalize a.numerator * b.denominator = p at *
  generalize b.numerator * a.denominator = q at *
  unfold wrap INT_MIN INT_MAX
  omega

/-- When both products fit, `operator*` passes them to the constructor. -/
theorem mul_eq_ctor (a b : Fraction) (ha : 0 < a.denominator) (hb : 0 < b.denominator)
    (h1 : (a.numerator * b.numerator).natAbs ≤ 2147483647)
    (h2 : (a.denominator * b.denominator).natAbs ≤ 2147483647) :
    a.mul b = Fraction.ctor (a.numerator * b.numerator)
      (a.denominator * b.denominator) := by
  have had : a.denominator ≠ 0 := ne_of_gt ha
  have hbd : b.denominator ≠ 0 := ne_of_gt hb
  have hg : (if a.numerator ≠ 0 ∧ b.numerator ≠ 0 then
      orElse (exceeds a.numerator b.numerator)
        (exceeds a.denominator b.denominator)
      else .ok false) = .ok false := by
    split
    · rename_i hnz
      rw [exceeds_false _ _ hnz.1 hnz.2 (by rw [← Int.natAbs_mul]; exact h1),
        exceeds_false _ _ had hbd (by rw [← Int.natAbs_mul]; exact h2)]
      rfl
    · rfl
  unfold Fraction.mul
  simp only [hg]
  rw [wrap_eq _ (inInt_of_natAbs _ h1), wrap_eq _ (inInt_of_natAbs _ h2)]

/-- For a non-zero divisor whose cross products fit, `operator/` passes
them to the constructor. -/
theorem div_eq_ctor (a b : Fraction) (ha : 0 < a.denominator) (hb : 0 < b.denominator)
    (hbn : b.numerator ≠ 0)
    (h1 : (a.numerator * b.denominator).natAbs ≤ 2147483647)
    (h2 : (a.denominator * b.numerator).natAbs ≤ 2147483647) :
    a.div b = Fraction.ctor (a.numerator * b.denominator)
      (a.denominator * b.numerator) := by
  have had : a.denominator ≠ 0 := ne_of_gt ha
  have hbd : b.denominator ≠ 0 := ne_of_gt hb
  have hg : (if a.numerator ≠ 0 ∧ b.numerator ≠ 0 then
      orElse (exceeds a.numerator b.denominator)
        (exceeds a.denominator b.numerator)
      else .ok false) = .ok false := by
    split
    · rename_i hnz
      rw [exceeds_false _ _ hnz.1 hbd (by rw [← Int.natAbs_mul]; exact h1),
        exceeds_false _ _ had hbn (by rw [← Int.natAbs_mul]; exact h2)]
      rfl
    · rfl
  unfold Fraction.div
  rw [if_neg hbn]
  simp only [hg]
  rw [wrap_eq _ (inInt_of_natAbs _ h1), wrap_eq _ (inInt_of_natAbs _ h2)]


theorem magFits_natAbs (x : Int) (h : magFits x) : x.natAbs ≤ 2147483647 := by
  unfold magFits INT_MAX at h; omega

theorem natAbs_of_inInt (x : Int) (h : inInt x) (hmin : x ≠ INT_MIN) :
    x.natAbs ≤ 2147483647 := by
  unfold inInt INT_MIN INT_MAX at h; unfold INT_MIN at hmin; omega

/-- A normalized fraction whose numerator is not `INT_MIN` is stored
unchanged by the constructor. -/
theorem ctor_idem (f : Fraction) (hf : f.Normalized) (hn : f.numerator.natAbs ≤ 2147483647)
    (hd : f.denominator.natAbs ≤ 2147483647) :
    Fraction.ctor f.numerator f.denominator = .ok f := by
  have hd0 : f.denominator ≠ 0 := ne_of_gt hf.1
  obtain ⟨g, hg, hgn, hgv, _, _⟩ := ctor_spec f.numerator f.denominator hn hd hd0
  rw [hg]
  congr 1
  exact normalized_unique g f hgn hf hgv

/-- The value of a normalized quotient, as a rational. -/
theorem ratio_of_cross (N D x y : Int) (hD : 0 < D) (hy : y ≠ 0) (h : N * y = x * D) :
    (N : ℚ) / (D : ℚ) = (x : ℚ) / (y : ℚ) := by
  have hD' : (D : ℚ) ≠ 0 := by exact_mod_cast ne_of_gt hD
  have hy' : (y : ℚ) ≠ 0 := by exact_mod_cast hy
  rw [div_eq_div_iff hD' hy']
  exact_mod_cast h

theorem exceeds_error (x y : Int) (e : Error) (h : exceeds x y = .error e) : e = .sigfpe := by
  unfold exceeds at h
  split at h
  · cases h
  · rename_i e1 h1
    cases h
    exact idiv_error _ _ _ h1

theorem orElse_error (p q : Except Error Bool) (e : Error) (h : orElse p q = .error e)
    (hp : ∀ e1, p = .error e1 → e1 = .sigfpe) (hq : ∀ e1, q = .error e1 → e1 = .sigfpe) :
    e = .sigfpe := by
  unfold orElse at h
  split at h
  · cases h
  · exact hq e h
  · rename_i e1
    cases h
    exact hp e rfl


/-- The operator `operator+` once the pre-check and the final check have both passed. -/
theorem add_unfold (a b : Fraction)
    (hg : (if a.numerator ≠ 0 ∧ b.numerator ≠ 0 then
      orElse (exceeds a.numerator b.denominator)
        (orElse (exceeds a.denominator b.numerator)
          (exceeds a.denominator b.denominator))
      else .ok false) = .ok false)
    (hs : ¬ ((wrap (a.numerator * b.denominator) < 0 ∧ wrap (b.numerator * a.denominator) < 0 ∧
          wrap (a.numerator * b.denominator) < wrap (INT_MIN - wrap (b.numerator * a.denominator))) ∨
        (wrap (a.numerator * b.denominator) > 0 ∧ wrap (b.numerator * a.denominator) > 0 ∧
          wrap (a.numerator * b.denominator)
            > wrap (INT_MAX - wrap (b.numerator * a.denominator))))) :
    a.add b = Fraction.ctor
      (wrap (wrap (a.numerator * b.denominator) + wrap (b.numerator * a.denominator)))
      (wrap (a.denominator * b.denominator)) := by
  unfold Fraction.add
  simp only [hg]
  rw [if_neg hs]

/-- The operator `operator-` once the pre-check and the final check have both passed. -/
theorem sub_unfold (a b : Fraction)
    (hg : (if a.numerator ≠ 0 ∧ b.numerator ≠ 0 then
      orElse (exceeds a.numerator b.denominator)
        (orElse (exceeds a.denominator b.numerator)
          (exceeds a.denominator b.denominator))
      else .ok false) = .ok false)
    (hs : ¬ ((wrap (a.numerator * b.denominator) < 0 ∧ wrap (b.numerator * a.denominator) > 0 ∧
          wrap (a.numerator * b.denominator) < wrap (INT_MIN + wrap (b.numerator * a.denominator))) ∨
        (wrap (a.numerator * b.denominator) > 0 ∧ wrap (b.numerator * a.denominator) < 0 ∧
          wrap (a.numerator * b.denominator)
            > wrap (INT_MAX + wrap (b.numerator * a.denominator))))) :
    a.sub b = Fraction.ctor
      (wrap (wrap (a.numerator * b.denominator) - wrap (b.numerator * a.denominator)))
      (wrap (a.denominator * b.denominator)) := by
  unfold Fraction.sub
  simp only [hg]
  rw [if_neg hs]

/-- The operator `operator*` once the pre-check has passed. -/
theorem mul_unfold (a b : Fraction)
    (hg : (if a.numerator ≠ 0 ∧ b.numerator ≠ 0 then
      orElse (exceeds a.numerator b.numerator)
        (exceeds a.denominator b.denominator)
      else .ok false) = .ok false) :
    a.mul b = Fraction.ctor (wrap (a.numerator * b.numerator))
      (wrap (a.denominator * b.denominator)) := by
  unfold Fraction.mul
  simp only [hg]


/-! ## Construction -/

/-- C1, as stated, fails at `INT_MIN`: `Fraction(1, INT_MIN)` stores the
negative denominator `INT_MIN`, and `Fraction(INT_MIN, -3)` stores
`INT_MIN / 3`, whose value is not that of `INT_MIN / -3`. -/
theorem ctor_INT_MIN_counterexample :
    (inInt 1 ∧ inInt INT_MIN ∧ INT_MIN ≠ 0 ∧
      Fraction.ctor 1 INT_MIN = .ok ⟨-1, INT_MIN⟩ ∧
      ¬ ∃ f, Fraction.ctor 1 INT_MIN = .ok f ∧ 0 < f.denominator) ∧
    (inInt INT_MIN ∧ inInt (-3) ∧ (-3 : Int) ≠ 0 ∧
      Fraction.ctor INT_MIN (-3) = .ok ⟨INT_MIN, 3⟩ ∧
      ¬ ∃ f, Fraction.ctor INT_MIN (-3) = .ok f ∧
        f.numerator * (-3) = INT_MIN * f.denominator) := by
  refine ⟨⟨by decide, by decide, by decide, ctor_one_INT_MIN, ?_⟩,
    ⟨by decide, by decide, by decide, ctor_INT_MIN_neg_three, ?_⟩⟩
  · rintro ⟨f, hf, hpos⟩
    rw [ctor_one_INT_MIN] at hf
    cases hf
    revert hpos
    decide
  · rintro ⟨f, hf, hv⟩
    rw [ctor_INT_MIN_neg_three] at hf
    cases hf
    revert hv
    decide

/-- C1 (amended): for every pair of ints `(n, d)` with `d ≠ 0` and neither
equal to `INT_MIN`, `Fraction(n, d)` returns a pair `(N, D)` with `D > 0`,
`gcd(|N|, D) = 1` and `N * d = n * D` as exact integers, so that `N / D` and
`n / d` are the same rational; `n = 0` gives `0/1`. -/
theorem ctor_normalizes (n d : Int) (hn : inInt n) (hd : inInt d)
    (hnmin : n ≠ INT_MIN) (hdmin : d ≠ INT_MIN) (hd0 : d ≠ 0) :
    ∃ f, Fraction.ctor n d = .ok f ∧ 0 < f.denominator ∧
      Nat.gcd f.numerator.natAbs f.denominator.natAbs = 1 ∧
      f.numerator * d = n * f.denominator ∧
      (f.numerator : ℚ) / (f.denominator : ℚ) = (n : ℚ) / (d : ℚ) ∧
      (n = 0 → f = ⟨0, 1⟩) := by
  obtain ⟨f, hf, hnorm, hv, _, _⟩ :=
    ctor_spec n d (natAbs_of_inInt n hn hnmin) (natAbs_of_inInt d hd hdmin) hd0
  refine ⟨f, hf, hnorm.1, hnorm.2, hv, ratio_of_cross _ _ _ _ hnorm.1 hd0 hv, ?_⟩
  intro h0
  apply normalized_unique f ⟨0, 1⟩ hnorm (by decide)
  have : f.numerator * d = 0 := by rw [hv, h0, zero_mul]
  rcases mul_eq_zero.mp this with h | h
  · simp [h]
  · exact absurd h hd0

/-- The amended C1 at `Fraction(6, -8)`. -/
theorem ctor_normalizes_witness :
    ∃ f, Fraction.ctor 6 (-8) = .ok f ∧ 0 < f.denominator ∧
      Nat.gcd f.numerator.natAbs f.denominator.natAbs = 1 ∧
      f.numerator * (-8) = 6 * f.denominator ∧
      (f.numerator : ℚ) / (f.denominator : ℚ) = ((6 : Int) : ℚ) / ((-8 : Int) : ℚ) ∧
      ((6 : Int) = 0 → f = ⟨0, 1⟩) :=
  ctor_normalizes 6 (-8) (by decide) (by decide) (by decide) (by decide) (by decide)

/-- C3: for normalized `a` and `b` whose cross products, denominator product
and exact sum of cross products have magnitude at most `INT_MAX`, `a + b`
returns the fraction in lowest terms with positive denominator whose value is
exactly `a.num/a.den + b.num/b.den`. -/
theorem add_correct (a b : Fraction) (ha : a.Normalized) (hb : b.Normalized)
    (h1 : magFits (a.numerator * b.denominator))
    (h2 : magFits (b.numerator * a.denominator))
    (h3 : magFits (a.denominator * b.denominator))
    (h4 : magFits (a.numerator * b.denominator + b.numerator * a.denominator)) :
    ∃ r, a.add b = .ok r ∧ r.Normalized ∧
      (r.numerator : ℚ) / (r.denominator : ℚ)
        = (a.numerator : ℚ) / (a.denominator : ℚ)
          + (b.numerator : ℚ) / (b.denominator : ℚ) := by
  have hden : a.denominator * b.denominator ≠ 0 :=
    mul_ne_zero (ne_of_gt ha.1) (ne_of_gt hb.1)
  obtain ⟨r, hr, hnorm, hv, _, _⟩ :=
    ctor_spec (a.numerator * b.denominator + b.numerator * a.denominator)
      (a.denominator * b.denominator) (magFits_natAbs _ h4) (magFits_natAbs _ h3) hden
  refine ⟨r, ?_, hnorm, ?_⟩
  · rw [add_eq_ctor a b ha.1 hb.1 (magFits_natAbs _ h1) (magFits_natAbs _ h2)
      (magFits_natAbs _ h3) (magFits_natAbs _ h4)]
    exact hr
  · rw [ratio_of_cross _ _ _ _ hnorm.1 hden hv]
    have hA : (a.denominator : ℚ) ≠ 0 := by exact_mod_cast ne_of_gt ha.1
    have hB : (b.denominator : ℚ) ≠ 0 := by exact_mod_cast ne_of_gt hb.1
    push_cast
    field_simp

/-- C3 at `Fraction(3,4) + Fraction(1,4)`. -/
theorem add_correct_witness :
    ∃ r, (Fraction.mk 3 4).add (Fraction.mk 1 4) = .ok r ∧ r.Normalized ∧
      (r.numerator : ℚ) / (r.denominator : ℚ)
        = (((Fraction.mk 3 4).numerator : Int) : ℚ) / ((Fraction.mk 3 4).denominator : ℚ)
          + ((Fraction.mk 1 4).numerator : ℚ) / ((Fraction.mk 1 4).denominator : ℚ) :=
  add_correct ⟨3, 4⟩ ⟨1, 4⟩ (by decide) (by decide) (by decide) (by decide) (by decide)
    (by decide)

/-- C4 fails on the code at `Fraction(INT_MIN, 1) + Fraction(1, 2)`: both
operands are what the constructor stores, the exact cross product
`INT_MIN * 2` is outside the int range, and `operator+` returns `1/2`
instead of throwing `overflow_error`. -/
theorem add_INT_MIN_wraps :
    Fraction.ctor INT_MIN 1 = .ok ⟨INT_MIN, 1⟩ ∧
    Fraction.ctor 1 2 = .ok ⟨1, 2⟩ ∧
    ¬ inInt ((Fraction.mk INT_MIN 1).numerator * (Fraction.mk 1 2).denominator) ∧
    (Fraction.mk INT_MIN 1).add ⟨1, 2⟩ = .ok ⟨1, 2⟩ := by
  have hg1 : gcd INT_MIN 1 = .ok 1 := by
    rw [gcd_eval INT_MIN 1 1 (by decide) (by decide) (by decide),
      gcd_eval 1 INT_MIN 0 (by decide) (by decide) (by decide), gcd_zero]
  have hg2 : gcd 1 2 = .ok 1 := by
    rw [gcd_eval 1 2 0 (by decide) (by decide) (by decide), gcd_zero]
  have hc1 : Fraction.ctor INT_MIN 1 = .ok ⟨INT_MIN, 1⟩ := by
    rw [ctor_unfold INT_MIN 1 1 (by decide) hg1 (by decide) (by decide)]
    rfl
  have hc2 : Fraction.ctor 1 2 = .ok ⟨1, 2⟩ := by
    rw [ctor_unfold 1 2 1 (by decide) hg2 (by decide) (by decide)]
    rfl
  refine ⟨hc1, hc2, by decide, ?_⟩
  have hstep : (Fraction.mk INT_MIN 1).add ⟨1, 2⟩ = Fraction.ctor 1 2 := by
    rw [add_unfold _ _ (by rfl) (by decide)]
    rfl
  rw [hstep, hc2]

/-! ## Subtraction -/

/-- C5 fails on the code at `Fraction(0, 1) - Fraction(INT_MIN, 1)`: with
`num1 = 0` the final check is skipped, `0 - INT_MIN` wraps to `INT_MIN`, and
`operator-` returns `INT_MIN/1` although the exact difference is
`2147483648`. -/
theorem sub_zero_INT_MIN_wraps :
    Fraction.ctor 0 1 = .ok ⟨0, 1⟩ ∧
    Fraction.ctor INT_MIN 1 = .ok ⟨INT_MIN, 1⟩ ∧
    (Fraction.mk 0 1).sub ⟨INT_MIN, 1⟩ = .ok ⟨INT_MIN, 1⟩ ∧
    (0 : Int) * 1 - INT_MIN * 1 = 2147483648 ∧ ¬ inInt ((0 : Int) * 1 - INT_MIN * 1) := by
  have hg0 : gcd 0 1 = .ok 1 := gcd_zero 1
  have hg1 : gcd INT_MIN 1 = .ok 1 := by
    rw [gcd_eval INT_MIN 1 1 (by decide) (by decide) (by decide),
      gcd_eval 1 INT_MIN 0 (by decide) (by decide) (by decide), gcd_zero]
  have hc0 : Fraction.ctor 0 1 = .ok ⟨0, 1⟩ := by
    rw [ctor_unfold 0 1 1 (by decide) hg0 (by decide) (by decide)]
    rfl
  have hc1 : Fraction.ctor INT_MIN 1 = .ok ⟨INT_MIN, 1⟩ := by
    rw [ctor_unfold INT_MIN 1 1 (by decide) hg1 (by decide) (by decide)]
    rfl
  refine ⟨hc0, hc1, ?_, by decide, by decide⟩
  have hstep : (Fraction.mk 0 1).sub ⟨INT_MIN, 1⟩ = Fraction.ctor INT_MIN 1 := by
    rw [sub_unfold _ _ (by rfl) (by decide)]
    rfl
  rw [hstep, hc1]

/-! ## Multiplication and division -/

/-- C6: for normalized `a` and `b` with `|a.num * b.num| ≤ INT_MAX` and
`a.den * b.den ≤ INT_MAX` (a zero numerator included), `a * b` returns the
fraction in lowest terms with positive denominator whose value is exactly
`(a.num/a.den) * (b.num/b.den)`. -/
theorem mul_correct (a b : Fraction) (ha : a.Normalized) (hb : b.Normalized)
    (h1 : magFits (a.numerator * b.numerator))
    (h2 : a.denominator * b.denominator ≤ INT_MAX) :
    ∃ r, a.mul b = .ok r ∧ r.Normalized ∧
      (r.numerator : ℚ) / (r.denominator : ℚ)
        = (a.numerator : ℚ) / (a.denominator : ℚ)
          * ((b.numerator : ℚ) / (b.denominator : ℚ)) := by
  have hpos : 0 < a.denominator * b.denominator := mul_pos ha.1 hb.1
  have hden : a.denominator * b.denominator ≠ 0 := ne_of_gt hpos
  have h2' : (a.denominator * b.denominator).natAbs ≤ 2147483647 := by
    unfold INT_MAX at h2; omega
  obtain ⟨r, hr, hnorm, hv, _, _⟩ :=
    ctor_spec (a.numerator * b.numerator) (a.denominator * b.denominator)
      (magFits_natAbs _ h1) h2' hden
  refine ⟨r, ?_, hnorm, ?_⟩
  · rw [mul_eq_ctor a b ha.1 hb.1 (magFits_natAbs _ h1) h2']
    exact hr
  · rw [ratio_of_cross _ _ _ _ hnorm.1 hden hv]
    have hA : (a.denominator : ℚ) ≠ 0 := by exact_mod_cast ne_of_gt ha.1
    have hB : (b.denominator : ℚ) ≠ 0 := by exact_mod_cast ne_of_gt hb.1
    push_cast
    field_simp

/-- C6 at `Fraction(1,2) * Fraction(2,1)`. -/
theorem mul_correct_witness :
    ∃ r, (Fraction.mk 1 2).mul (Fraction.mk 2 1) = .ok r ∧ r.Normalized ∧
      (r.numerator : ℚ) / (r.denominator : ℚ)
        = ((Fraction.mk 1 2).numerator : ℚ) / ((Fraction.mk 1 2).denominator : ℚ)
          * (((Fraction.mk 2 1).numerator : ℚ) / ((Fraction.mk 2 1).denominator : ℚ)) :=
  mul_correct ⟨1, 2⟩ ⟨2, 1⟩ (by decide) (by decide) (by decide) (by decide)

/-- C7: `a / b` throws the division-by-zero `runtime_error` if and only if
the numerator of `b` is 0, whatever `a` is. -/
theorem div_runtime_error_iff (a b : Fraction) :
    a.div b = .error .runtime_error ↔ b.numerator = 0 := by
  constructor
  · intro h
    by_contra hb
    unfold Fraction.div at h
    rw [if_neg hb] at h
    dsimp only at h
    split at h
    · rename_i e hg
      cases h
      split at hg
      · have := orElse_error _ _ _ hg (fun e1 he => exceeds_error _ _ e1 he)
          (fun e1 he => exceeds_error _ _ e1 he)
        cases this
      · cases hg
    · cases h
    · rcases ctor_error _ _ _ h with ⟨hc, _⟩ | ⟨hc, _⟩ <;> cases hc
  · intro hb
    unfold Fraction.div
    rw [if_pos hb]

/-- C8: for normalized `a` and `b` with `b.num ≠ 0`, `|a.num * b.den| ≤
INT_MAX` and `|a.den * b.num| ≤ INT_MAX`, `a / b` returns the fraction in
lowest terms whose value is exactly `(a.num/a.den) / (b.num/b.den)`, with a
positive denominator whatever the sign of `b`. -/
theorem div_correct (a b : Fraction) (ha : a.Normalized) (hb : b.Normalized)
    (hbn : b.numerator ≠ 0)
    (h1 : magFits (a.numerator * b.denominator))
    (h2 : magFits (a.denominator * b.numerator)) :
    ∃ r, a.div b = .ok r ∧ r.Normalized ∧ 0 < r.denominator ∧
      (r.numerator : ℚ) / (r.denominator : ℚ)
        = (a.numerator : ℚ) / (a.denominator : ℚ)
          / ((b.numerator : ℚ) / (b.denominator : ℚ)) := by
  have hden : a.denominator * b.numerator ≠ 0 := mul_ne_zero (ne_of_gt ha.1) hbn
  obtain ⟨r, hr, hnorm, hv, _, _⟩ :=
    ctor_spec (a.numerator * b.denominator) (a.denominator * b.numerator)
      (magFits_natAbs _ h1) (magFits_natAbs _ h2) hden
  refine ⟨r, ?_, hnorm, hnorm.1, ?_⟩
  · rw [div_eq_ctor a b ha.1 hb.1 hbn (magFits_natAbs _ h1) (magFits_natAbs _ h2)]
    exact hr
  · rw [ratio_of_cross _ _ _ _ hnorm.1 hden hv]
    have hA : (a.denominator : ℚ) ≠ 0 := by exact_mod_cast ne_of_gt ha.1
    have hB : (b.denominator : ℚ) ≠ 0 := by exact_mod_cast ne_of_gt hb.1
    have hN : (b.numerator : ℚ) ≠ 0 := by exact_mod_cast hbn
    push_cast
    field_simp

/-- C8 at `Fraction(1,2) / Fraction(-1,4)`. -/
theorem div_correct_witness :
    ∃ r, (Fraction.mk 1 2).div (Fraction.mk (-1) 4) = .ok r ∧ r.Normalized ∧
      0 < r.denominator ∧
      (r.numerator : ℚ) / (r.denominator : ℚ)
        = ((Fraction.mk 1 2).numerator : ℚ) / ((Fraction.mk 1 2).denominator : ℚ)
          / (((Fraction.mk (-1) 4).numerator : ℚ) / ((Fraction.mk (-1) 4).denominator : ℚ)) :=
  div_correct ⟨1, 2⟩ ⟨-1, 4⟩ (by decide) (by decide) (by decide) (by decide) (by decide)


/-! ## Canonical construction and the identity laws -/

/-- C9: for ints `n`, `d`, `k` with `d ≠ 0`, `k ≠ 0` and `|k*n|`, `|k*d|` at
most `INT_MAX`, `Fraction(k*n, k*d)` and `Fraction(n, d)` store the same
numerator and denominator; hence they compare equal with `==`, in any float
arithmetic in which the difference of the float ratio of two ints with itself
is below the tolerance. -/
theorem ctor_canonical {F : Type} (ops : FloatOps F) (n d k : Int)
    (hd : d ≠ 0) (hk : k ≠ 0) (hkn : magFits (k * n)) (hkd : magFits (k * d)) :
    ∃ f1 f2, Fraction.ctor (k * n) (k * d) = .ok f1 ∧ Fraction.ctor n d = .ok f2 ∧
      f1 = f2 ∧
      ((∀ f : Fraction, inInt f.numerator → inInt f.denominator → f.denominator ≠ 0 →
          ops.ltTol (ops.sub (f.quotient ops) (f.quotient ops)) = true) →
        f1.eq ops f2 = true) := by
  have hkd0 : k * d ≠ 0 := mul_ne_zero hk hd
  have hn' : n.natAbs ≤ 2147483647 :=
    natAbs_le_of_mul n k hk (by rw [mul_comm]; exact magFits_natAbs _ hkn)
  have hd' : d.natAbs ≤ 2147483647 :=
    natAbs_le_of_mul d k hk (by rw [mul_comm]; exact magFits_natAbs _ hkd)
  obtain ⟨f1, hf1, hn1, hv1, hb1, hb2⟩ :=
    ctor_spec (k * n) (k * d) (magFits_natAbs _ hkn) (magFits_natAbs _ hkd) hkd0
  obtain ⟨f2, hf2, hn2, hv2, _, _⟩ := ctor_spec n d hn' hd' hd
  have heq : f1 = f2 :=
    normalized_same_value f1 f2 (k * n) (k * d) n d hn1 hn2 hkd0 hd hv1 hv2 (by ring)
  refine ⟨f1, f2, hf1, hf2, heq, fun hfloat => ?_⟩
  subst heq
  unfold Fraction.eq
  simp only [ite_self]
  exact hfloat f1 (inInt_of_natAbs _ (le_trans hb1 (magFits_natAbs _ hkn)))
    (inInt_of_natAbs _ (le_trans hb2 (magFits_natAbs _ hkd))) (ne_of_gt hn1.1)

/-- C9 at `Fraction(6,8)` against `Fraction(3,4)`, with exact rational
arithmetic standing for the floats. -/
theorem ctor_canonical_witness :
    ∃ f1 f2, Fraction.ctor (2 * 3) (2 * 4) = .ok f1 ∧ Fraction.ctor 3 4 = .ok f2 ∧
      f1 = f2 ∧ f1.eq exactOps f2 = true := by
  obtain ⟨f1, f2, h1, h2, h3, h4⟩ :=
    ctor_canonical exactOps 3 4 2 (by decide) (by decide) (by decide) (by decide)
  exact ⟨f1, f2, h1, h2, h3, h4 (fun f _ _ _ => by simp [exactOps, Fraction.quotient])⟩

/-- C10, as stated, fails at `f = Fraction(3, INT_MIN)`, which the constructor
stores as `-3 / INT_MIN`: both `f + Fraction(0,1)` and `f * Fraction(1,1)`
return `3 / INT_MIN`, a different pair. -/
theorem identity_INT_MIN_counterexample :
    Fraction.ctor 3 INT_MIN = .ok ⟨-3, INT_MIN⟩ ∧
    Fraction.ctor 0 1 = .ok ⟨0, 1⟩ ∧ Fraction.ctor 1 1 = .ok ⟨1, 1⟩ ∧
    (Fraction.mk (-3) INT_MIN).add ⟨0, 1⟩ = .ok ⟨3, INT_MIN⟩ ∧
    (Fraction.mk (-3) INT_MIN).mul ⟨1, 1⟩ = .ok ⟨3, INT_MIN⟩ ∧
    Fraction.mk 3 INT_MIN ≠ Fraction.mk (-3) INT_MIN := by
  have hg1 : gcd 3 INT_MIN = .ok 1 := by
    rw [gcd_eval 3 INT_MIN (-2) (by decide) (by decide) (by decide),
      gcd_eval (-2) 3 1 (by decide) (by decide) (by decide),
      gcd_eval 1 (-2) 0 (by decide) (by decide) (by decide), gcd_zero]
  have hg2 : gcd (-3) INT_MIN = .ok (-1) := by
    rw [gcd_eval (-3) INT_MIN (-2) (by decide) (by decide) (by decide),
      gcd_eval (-2) (-3) (-1) (by decide) (by decide) (by decide),
      gcd_eval (-1) (-2) 0 (by decide) (by decide) (by decide), gcd_zero]
  have hc1 : Fraction.ctor 3 INT_MIN = .ok ⟨-3, INT_MIN⟩ := by
    rw [ctor_unfold 3 INT_MIN 1 (by decide) hg1 (by decide) (by decide)]
    rfl
  have hc2 : Fraction.ctor (-3) INT_MIN = .ok ⟨3, INT_MIN⟩ := by
    rw [ctor_unfold (-3) INT_MIN (-1) (by decide) hg2 (by decide) (by decide)]
    rfl
  have hadd : (Fraction.mk (-3) INT_MIN).add ⟨0, 1⟩ = Fraction.ctor (-3) INT_MIN := by
    rw [add_unfold _ _ (by rfl) (by decide)]
    rfl
  have hmul : (Fraction.mk (-3) INT_MIN).mul ⟨1, 1⟩ = Fraction.ctor (-3) INT_MIN := by
    rw [mul_unfold _ _ (by rfl)]
    rfl
  refine ⟨hc1, ctor_idem ⟨0, 1⟩ (by decide) (by decide) (by decide),
    ctor_idem ⟨1, 1⟩ (by decide) (by decide) (by decide), ?_, ?_, by decide⟩
  · rw [hadd, hc2]
  · rw [hmul, hc2]

/-- C10 (amended): for every fraction `f` that the integer constructor returns
for arguments other than `INT_MIN`, `f + Fraction(0,1)` and
`f * Fraction(1,1)` both return a fraction with exactly the numerator and
denominator of `f`. -/
theorem identity_laws (n d : Int) (hn : inInt n) (hd : inInt d)
    (hnmin : n ≠ INT_MIN) (hdmin : d ≠ INT_MIN) (hd0 : d ≠ 0) :
    ∃ f zero one, Fraction.ctor n d = .ok f ∧
      Fraction.ctor 0 1 = .ok zero ∧ Fraction.ctor 1 1 = .ok one ∧
      f.add zero = .ok f ∧ f.mul one = .ok f := by
  have hn' := natAbs_of_inInt n hn hnmin
  have hd' := natAbs_of_inInt d hd hdmin
  obtain ⟨f, hf, hnorm, _, hfn, hfd⟩ := ctor_spec n d hn' hd' hd0
  have hfn' : f.numerator.natAbs ≤ 2147483647 := le_trans hfn hn'
  have hfd' : f.denominator.natAbs ≤ 2147483647 := le_trans hfd hd'
  have hidem := ctor_idem f hnorm hfn' hfd'
  refine ⟨f, ⟨0, 1⟩, ⟨1, 1⟩, hf, ctor_idem ⟨0, 1⟩ (by decide) (by decide) (by decide),
    ctor_idem ⟨1, 1⟩ (by decide) (by decide) (by decide), ?_, ?_⟩
  · rw [add_eq_ctor f ⟨0, 1⟩ hnorm.1 (by decide) (by simpa using hfn') (by simp)
      (by simpa using hfd') (by simpa using hfn')]
    simpa using hidem
  · rw [mul_eq_ctor f ⟨1, 1⟩ hnorm.1 (by decide) (by simpa using hfn')
      (by simpa using hfd')]
    simpa using hidem

/-- The amended C10 at `f = Fraction(-6, 8)`. -/
theorem identity_laws_witness :
    ∃ f zero one, Fraction.ctor (-6) 8 = .ok f ∧
      Fraction.ctor 0 1 = .ok zero ∧ Fraction.ctor 1 1 = .ok one ∧
      f.add zero = .ok f ∧ f.mul one = .ok f :=
  identity_laws (-6) 8 (by decide) (by decide) (by decide) (by decide) (by decide)


/-! ## Ordering -/

/-- C12 fails on the code at `Fraction(65536, 1)` against
`Fraction(1, 65536)`: the constructor stores both pairs unchanged, the
denominators are positive and `65536 * 65536 > 1 * 1` as exact integers, that
is `65536/1 > 1/65536` as rationals, yet `operator>` returns false and
`operator<` returns true, because the unguarded product `65536 * 65536` wraps
to 0. -/
theorem gt_lt_wrap :
    Fraction.ctor 65536 1 = .ok ⟨65536, 1⟩ ∧ Fraction.ctor 1 65536 = .ok ⟨1, 65536⟩ ∧
    0 < (Fraction.mk 65536 1).denominator ∧ 0 < (Fraction.mk 1 65536).denominator ∧
    (Fraction.mk 65536 1).numerator * (Fraction.mk 1 65536).denominator
      > (Fraction.mk 1 65536).numerator * (Fraction.mk 65536 1).denominator ∧
    ((Fraction.mk 65536 1).numerator : ℚ) / ((Fraction.mk 65536 1).denominator : ℚ)
      > ((Fraction.mk 1 65536).numerator : ℚ) / ((Fraction.mk 1 65536).denominator : ℚ) ∧
    wrap ((Fraction.mk 65536 1).numerator * (Fraction.mk 1 65536).denominator) = 0 ∧
    (Fraction.mk 65536 1).gt ⟨1, 65536⟩ = false ∧
    (Fraction.mk 65536 1).lt ⟨1, 65536⟩ = true := by
  refine ⟨ctor_idem ⟨65536, 1⟩ (by decide) (by decide) (by decide),
    ctor_idem ⟨1, 65536⟩ (by decide) (by decide) (by decide), by decide, by decide,
    by decide, ?_, by decide, by decide, by decide⟩
  show ((65536 : Int) : ℚ) / ((1 : Int) : ℚ) > ((1 : Int) : ℚ) / ((65536 : Int) : ℚ)
  norm_num

/-- Where the comparisons are exact: for fractions `a` and `b` with positive
denominators whose cross products `a.num*b.den` and `b.num*a.den` do not
wrap, `a > b` is true exactly when `a.num*b.den > b.num*a.den` as exact
integers, that is when `a.num/a.den > b.num/b.den` as rationals, and `a < b`
exactly when it is strictly smaller. -/
theorem gt_lt_exact (a b : Fraction) (ha : 0 < a.denominator) (hb : 0 < b.denominator)
    (h1 : inInt (a.numerator * b.denominator)) (h2 : inInt (b.numerator * a.denominator)) :
    (a.gt b = true ↔ a.numerator * b.denominator > b.numerator * a.denominator) ∧
    (a.gt b = true ↔
      (a.numerator : ℚ) / (a.denominator : ℚ) > (b.numerator : ℚ) / (b.denominator : ℚ)) ∧
    (a.lt b = true ↔ a.numerator * b.denominator < b.numerator * a.denominator) ∧
    (a.lt b = true ↔
      (a.numerator : ℚ) / (a.denominator : ℚ) < (b.numerator : ℚ) / (b.denominator : ℚ)) := by
  have hA : (0 : ℚ) < (a.denominator : ℚ) := by exact_mod_cast ha
  have hB : (0 : ℚ) < (b.denominator : ℚ) := by exact_mod_cast hb
  have hg : a.gt b = true ↔ a.numerator * b.denominator > b.numerator * a.denominator := by
    unfold Fraction.gt
    rw [wrap_eq _ h1, wrap_eq _ h2]
    exact decide_eq_true_iff
  have hl : a.lt b = true ↔ a.numerator * b.denominator < b.numerator * a.denominator := by
    unfold Fraction.lt
    rw [wrap_eq _ h1, wrap_eq _ h2]
    exact decide_eq_true_iff
  refine ⟨hg, ?_, hl, ?_⟩
  · rw [hg, gt_iff_lt, gt_iff_lt, div_lt_div_iff₀ hB hA]
    exact_mod_cast Iff.rfl
  · rw [hl, div_lt_div_iff₀ hA hB]
    exact_mod_cast Iff.rfl

/-- The comparisons of `3/4` against `1/2`, where no product wraps. -/
theorem gt_lt_exact_witness :
    ((Fraction.mk 3 4).gt ⟨1, 2⟩ = true ↔
      (Fraction.mk 3 4).numerator * (Fraction.mk 1 2).denominator
        > (Fraction.mk 1 2).numerator * (Fraction.mk 3 4).denominator) ∧
    ((Fraction.mk 3 4).gt ⟨1, 2⟩ = true ↔
      ((Fraction.mk 3 4).numerator : ℚ) / ((Fraction.mk 3 4).denominator : ℚ)
        > ((Fraction.mk 1 2).numerator : ℚ) / ((Fraction.mk 1 2).denominator : ℚ)) ∧
    ((Fraction.mk 3 4).lt ⟨1, 2⟩ = true ↔
      (Fraction.mk 3 4).numerator * (Fraction.mk 1 2).denominator
        < (Fraction.mk 1 2).numerator * (Fraction.mk 3 4).denominator) ∧
    ((Fraction.mk 3 4).lt ⟨1, 2⟩ = true ↔
      ((Fraction.mk 3 4).numerator : ℚ) / ((Fraction.mk 3 4).denominator : ℚ)
        < ((Fraction.mk 1 2).numerator : ℚ) / ((Fraction.mk 1 2).denominator : ℚ)) :=
  gt_lt_exact ⟨3, 4⟩ ⟨1, 2⟩ (by decide) (by decide) (by decide) (by decide)

/-! ## Increment and decrement -/

/-- C14: for a fraction holding `(n, d)`, `f++` returns the old pair `(n, d)`
and leaves `f` holding `(n + d, d)`; `++f` returns the pair that `f` holds
after the call, `(n + d, d)`; `f--` and `--f` do the same with `n - d`. The sum
and the difference are those of `int`: they are the exact `n + d` and `n - d`
whenever these are within the int range. -/
theorem inc_dec_pairs (n d : Int) :
    (Fraction.mk n d).postInc = (⟨n, d⟩, ⟨wrap (n + d), d⟩) ∧
    (Fraction.mk n d).preInc = (⟨wrap (n + d), d⟩, ⟨wrap (n + d), d⟩) ∧
    (Fraction.mk n d).postDec = (⟨n, d⟩, ⟨wrap (n - d), d⟩) ∧
    (Fraction.mk n d).preDec = (⟨wrap (n - d), d⟩, ⟨wrap (n - d), d⟩) ∧
    (inInt (n + d) → wrap (n + d) = n + d) ∧
    (inInt (n - d) → wrap (n - d) = n - d) :=
  ⟨rfl, rfl, rfl, rfl, wrap_eq _, wrap_eq _⟩

/-- C14 at the fractions of the tests: `1/2`, whose increment is `3/2`, and
whose decrement is `-1/2`. -/
theorem inc_dec_pairs_witness :
    (Fraction.mk 1 2).postInc = (⟨1, 2⟩, ⟨3, 2⟩) ∧
    (Fraction.mk 1 2).preInc = (⟨3, 2⟩, ⟨3, 2⟩) ∧
    (Fraction.mk 1 2).postDec = (⟨1, 2⟩, ⟨-1, 2⟩) ∧
    (Fraction.mk 1 2).preDec = (⟨-1, 2⟩, ⟨-1, 2⟩) := by
  obtain ⟨h1, h2, h3, h4, h5, h6⟩ := inc_dec_pairs 1 2
  rw [h5 (by decide)] at h1 h2
  rw [h6 (by decide)] at h3 h4
  exact ⟨h1, h2, h3, h4⟩

/-- C15: increment and decrement are inverse. For every fraction `f` (its
numerator an int), `f++` then `f--`, `++f` then `--f`, `f--` then `f++` and
`--f` then `++f` each leave `f` with the numerator and denominator it had
before. -/
theorem inc_dec_inverse (f : Fraction) (hn : inInt f.numerator) :
    f.postInc.2.postDec.2 = f ∧ f.preInc.2.preDec.2 = f ∧
    f.postDec.2.postInc.2 = f ∧ f.preDec.2.preInc.2 = f := by
  obtain ⟨n, d⟩ := f
  have h1 : wrap (wrap (n + d) - d) = n := by
    unfold inInt INT_MIN INT_MAX at hn
    unfold wrap
    simp only at hn
    omega
  have h2 : wrap (wrap (n - d) + d) = n := by
    unfold inInt INT_MIN INT_MAX at hn
    unfold wrap
    simp only at hn
    omega
  simp only [Fraction.postInc, Fraction.postDec, Fraction.preInc, Fraction.preDec, h1, h2,
    and_self]

/-- C15 at `INT_MAX/1`, whose increment wraps. -/
theorem inc_dec_inverse_witness :
    (Fraction.mk INT_MAX 1).postInc.2.postDec.2 = ⟨INT_MAX, 1⟩ ∧
    (Fraction.mk INT_MAX 1).preInc.2.preDec.2 = ⟨INT_MAX, 1⟩ ∧
    (Fraction.mk INT_MAX 1).postDec.2.postInc.2 = ⟨INT_MAX, 1⟩ ∧
    (Fraction.mk INT_MAX 1).preDec.2.preInc.2 = ⟨INT_MAX, 1⟩ :=
  inc_dec_inverse ⟨INT_MAX, 1⟩ (by decide)


/-- C20: increment and decrement keep the normalization invariant. For a
fraction in lowest terms with positive denominator `d` and numerator `n` such
that `n + d` (resp. `n - d`) is within the int range, after `++f` or `f++`
(resp. `--f` or `f--`) the fraction is still in lowest terms with the same
positive denominator, and its value is exactly the old value plus 1 (resp.
minus 1). -/
theorem inc_dec_normalized (f : Fraction) (hf : f.Normalized) :
    (inInt (f.numerator + f.denominator) →
      f.preInc.2 = f.postInc.2 ∧ f.preInc.2.Normalized ∧
      f.preInc.2.denominator = f.denominator ∧
      (f.preInc.2.numerator : ℚ) / (f.preInc.2.denominator : ℚ)
        = (f.numerator : ℚ) / (f.denominator : ℚ) + 1) ∧
    (inInt (f.numerator - f.denominator) →
      f.preDec.2 = f.postDec.2 ∧ f.preDec.2.Normalized ∧
      f.preDec.2.denominator = f.denominator ∧
      (f.preDec.2.numerator : ℚ) / (f.preDec.2.denominator : ℚ)
        = (f.numerator : ℚ) / (f.denominator : ℚ) - 1) := by
  obtain ⟨n, d⟩ := f
  obtain ⟨hd, hc⟩ := hf
  simp only at hd hc
  have hd' : (d : ℚ) ≠ 0 := by exact_mod_cast ne_of_gt hd
  have hcop : IsCoprime n d := Int.isCoprime_iff_gcd_eq_one.mpr hc
  constructor
  · intro h
    simp only at h
    refine ⟨rfl, ⟨hd, ?_⟩, rfl, ?_⟩
    · show Nat.gcd (wrap (n + d)).natAbs d.natAbs = 1
      rw [wrap_eq _ h]
      have h2 : IsCoprime (n + d) d := by
        have := hcop.add_mul_left_left 1
        simpa using this
      exact Int.isCoprime_iff_gcd_eq_one.mp h2
    · show ((wrap (n + d) : Int) : ℚ) / (d : ℚ) = (n : ℚ) / (d : ℚ) + 1
      rw [wrap_eq _ h]
      push_cast
      field_simp
  · intro h
    simp only at h
    refine ⟨rfl, ⟨hd, ?_⟩, rfl, ?_⟩
    · show Nat.gcd (wrap (n - d)).natAbs d.natAbs = 1
      rw [wrap_eq _ h]
      have h2 : IsCoprime (n - d) d := by
        have := hcop.add_mul_left_left (-1)
        simpa [sub_eq_add_neg] using this
      exact Int.isCoprime_iff_gcd_eq_one.mp h2
    · show ((wrap (n - d) : Int) : ℚ) / (d : ℚ) = (n : ℚ) / (d : ℚ) - 1
      rw [wrap_eq _ h]
      push_cast
      field_simp

/-- C20 at `3/4`. -/
theorem inc_dec_normalized_witness :
    ((Fraction.mk 3 4).preInc.2 = (Fraction.mk 3 4).postInc.2 ∧
      (Fraction.mk 3 4).preInc.2.Normalized ∧
      (Fraction.mk 3 4).preInc.2.denominator = (Fraction.mk 3 4).denominator ∧
      ((Fraction.mk 3 4).preInc.2.numerator : ℚ) / ((Fraction.mk 3 4).preInc.2.denominator : ℚ)
        = ((Fraction.mk 3 4).numerator : ℚ) / ((Fraction.mk 3 4).denominator : ℚ) + 1) ∧
    ((Fraction.mk 3 4).preDec.2 = (Fraction.mk 3 4).postDec.2 ∧
      (Fraction.mk 3 4).preDec.2.Normalized ∧
      (Fraction.mk 3 4).preDec.2.denominator = (Fraction.mk 3 4).denominator ∧
      ((Fraction.mk 3 4).preDec.2.numerator : ℚ) / ((Fraction.mk 3 4).preDec.2.denominator : ℚ)
        = ((Fraction.mk 3 4).numerator : ℚ) / ((Fraction.mk 3 4).denominator : ℚ) - 1) :=
  ⟨(inc_dec_normalized ⟨3, 4⟩ (by decide)).1 (by decide),
    (inc_dec_normalized ⟨3, 4⟩ (by decide)).2 (by decide)⟩

/-! ## The denominator setter -/

/-- C16 fails on the code at `Fraction f(1, 2); f.setDenominator(0)`: the
setter tests the stored denominator `2`, not its argument, throws nothing
and leaves `f` holding `1/0`. -/
theorem setDenominator_zero :
    Fraction.ctor 1 2 = .ok ⟨1, 2⟩ ∧
    (Fraction.mk 1 2).setDenominator 0 = .ok ⟨1, 0⟩ ∧
    (Fraction.mk 1 0).denominator = 0 :=
  ⟨ctor_idem ⟨1, 2⟩ (by decide) (by decide) (by decide), rfl, rfl⟩


/-! ## Division of a fraction by itself -/

/-- The pre-check disjunct is true when the product of the magnitudes does
not fit. -/
theorem exceeds_true (x y : Int) (hx : x.natAbs ≤ 2147483647) (hy : y.natAbs ≤ 2147483647)
    (hy0 : y ≠ 0) (h : 2147483647 < x.natAbs * y.natAbs) : exceeds x y = .ok true := by
  have hypos : 0 < y.natAbs := Int.natAbs_pos.mpr hy0
  have ht : ¬ divTraps INT_MAX (iabs y) := by
    unfold divTraps; rw [iabs_eq_natAbs y hy]; omega
  have hq : Int.tdiv INT_MAX (y.natAbs : Int) = INT_MAX / (y.natAbs : Int) :=
    Int.tdiv_eq_ediv (by decide) (by omega)
  have hlt : INT_MAX / (y.natAbs : Int) < (x.natAbs : Int) := by
    apply Int.ediv_lt_of_lt_mul (by omega)
    unfold INT_MAX
    exact_mod_cast h
  unfold exceeds idiv
  rw [if_neg ht, iabs_eq_natAbs y hy, iabs_eq_natAbs x hx, hq]
  simp only [gt_iff_lt, Except.ok.injEq, decide_eq_true_eq]
  exact hlt

/-- The pre-check disjunct against `INT_MIN`: `INT_MAX / abs(INT_MIN)` is 0. -/
theorem exceeds_INT_MIN_right (x : Int) :
    exceeds x INT_MIN = .ok (decide (iabs x > 0)) := by
  have h1 : iabs INT_MIN = INT_MIN := by decide
  have h2 : idiv INT_MAX INT_MIN = .ok 0 := by rfl
  unfold exceeds
  rw [h1, h2]

/-- The pre-check disjunct with `INT_MIN` on the left never fires:
`abs(INT_MIN)` is negative. -/
theorem exceeds_INT_MIN_left (y : Int) (hy : y.natAbs ≤ 2147483647) (hy0 : y ≠ 0) :
    exceeds INT_MIN y = .ok false := by
  have hypos : 0 < y.natAbs := Int.natAbs_pos.mpr hy0
  have ht : ¬ divTraps INT_MAX (iabs y) := by
    unfold divTraps; rw [iabs_eq_natAbs y hy]; omega
  have hq : Int.tdiv INT_MAX (y.natAbs : Int) = INT_MAX / (y.natAbs : Int) :=
    Int.tdiv_eq_ediv (by decide) (by omega)
  have hnn : 0 ≤ INT_MAX / (y.natAbs : Int) := Int.ediv_nonneg (by decide) (by omega)
  have h1 : iabs INT_MIN = INT_MIN := by decide
  unfold exceeds idiv
  rw [if_neg ht, iabs_eq_natAbs y hy, h1, hq]
  simp only [gt_iff_lt, Except.ok.injEq, decide_eq_false_iff_not, not_lt]
  unfold INT_MIN
  omega

/-- For a non-zero divisor whose cross products fit, `operator/` passes
them to the constructor, whatever the signs of the denominators. -/
theorem div_eq_ctor_of_ne (a b : Fraction) (had : a.denominator ≠ 0)
    (hbd : b.denominator ≠ 0) (hbn : b.numerator ≠ 0)
    (h1 : (a.numerator * b.denominator).natAbs ≤ 2147483647)
    (h2 : (a.denominator * b.numerator).natAbs ≤ 2147483647) :
    a.div b = Fraction.ctor (a.numerator * b.denominator)
      (a.denominator * b.numerator) := by
  have hg : (if a.numerator ≠ 0 ∧ b.numerator ≠ 0 then
      orElse (exceeds a.numerator b.denominator)
        (exceeds a.denominator b.numerator)
      else .ok false) = .ok false := by
    split
    · rename_i hnz
      rw [exceeds_false _ _ hnz.1 hbd (by rw [← Int.natAbs_mul]; exact h1),
        exceeds_false _ _ had hbn (by rw [← Int.natAbs_mul]; exact h2)]
      rfl
    · rfl
  unfold Fraction.div
  rw [if_neg hbn]
  simp only [hg]
  rw [wrap_eq _ (inInt_of_natAbs _ h1), wrap_eq _ (inInt_of_natAbs _ h2)]

/-- A fraction with int fields, both non-zero and not both `INT_MIN`,
divided by itself: `1/1` when `numerator * denominator` has magnitude at most
`INT_MAX`, `overflow_error` otherwise. -/
theorem div_self_of_fields (f : Fraction) (hn : inInt f.numerator) (hd : inInt f.denominator)
    (hnum : f.numerator ≠ 0) (hden : f.denominator ≠ 0)
    (hmin : ¬ (f.numerator = INT_MIN ∧ f.denominator = INT_MIN)) :
    (magFits (f.numerator * f.denominator) → f.div f = .ok ⟨1, 1⟩) ∧
    (¬ magFits (f.numerator * f.denominator) → f.div f = .error .overflow_error) := by
  constructor
  · intro h
    have h1 := magFits_natAbs _ h
    have h2 : (f.denominator * f.numerator).natAbs ≤ 2147483647 := by
      rw [mul_comm]; exact h1
    have hprod : f.denominator * f.numerator ≠ 0 := mul_ne_zero hden hnum
    rw [div_eq_ctor_of_ne f f hden hden hnum h1 h2]
    obtain ⟨r, hr, hnorm, hv, _, _⟩ :=
      ctor_spec (f.numerator * f.denominator) (f.denominator * f.numerator) h1 h2 hprod
    rw [hr]
    congr 1
    exact normalized_same_value r ⟨1, 1⟩ (f.numerator * f.denominator)
      (f.denominator * f.numerator) 1 1 hnorm (by decide) hprod (by decide) hv (by simp)
      (by ring)
  · intro h
    have hover : orElse (exceeds f.numerator f.denominator)
        (exceeds f.denominator f.numerator) = .ok true := by
      by_cases hdm : f.denominator = INT_MIN
      · have hnm : f.numerator ≠ INT_MIN := fun hc => hmin ⟨hc, hdm⟩
        have hpos : iabs f.numerator > 0 := by
          rw [iabs_eq_natAbs _ (natAbs_of_inInt _ hn hnm)]
          have := Int.natAbs_pos.mpr hnum
          omega
        rw [hdm, exceeds_INT_MIN_right, decide_eq_true hpos]
        rfl
      · by_cases hnm : f.numerator = INT_MIN
        · have hpos : iabs f.denominator > 0 := by
            rw [iabs_eq_natAbs _ (natAbs_of_inInt _ hd hdm)]
            have := Int.natAbs_pos.mpr hden
            omega
          rw [hnm, exceeds_INT_MIN_left _ (natAbs_of_inInt _ hd hdm) hden,
            exceeds_INT_MIN_right, decide_eq_true hpos]
          rfl
        · have hbig : 2147483647 < f.numerator.natAbs * f.denominator.natAbs := by
            rw [← Int.natAbs_mul]
            unfold magFits INT_MAX at h
            omega
          rw [exceeds_true _ _ (natAbs_of_inInt _ hn hnm) (natAbs_of_inInt _ hd hdm) hden hbig]
          rfl
    unfold Fraction.div
    rw [if_neg hnum]
    simp only [ne_eq, hnum, not_false_eq_true, and_self, if_true, hover]


/-- Whenever the helper returns, its result is, up to sign, the greatest
common divisor of the magnitudes. -/
theorem gcd_natAbs_of_ok (n d g : Int) (h : gcd n d = .ok g) :
    g.natAbs = Nat.gcd n.natAbs d.natAbs := by
  induction n, d using gcd.induct with
  | case1 d =>
    rw [gcd_zero] at h
    cases h
    simp
  | case2 n d h0 ht => rw [gcd_trap n d h0 ht] at h; cases h
  | case3 n d h0 ht ih =>
    rw [gcd_step n d h0 ht] at h
    rw [ih h, natAbs_tmod]
    exact (Nat.gcd_rec n.natAbs d.natAbs).symm

/-- The result of the helper on ints is an int. -/
theorem gcd_inInt (n d g : Int) (hn : inInt n) (hd : inInt d) (h : gcd n d = .ok g) :
    inInt g := by
  induction n, d using gcd.induct with
  | case1 d =>
    rw [gcd_zero] at h
    cases h
    exact hd
  | case2 n d h0 ht => rw [gcd_trap n d h0 ht] at h; cases h
  | case3 n d h0 ht ih =>
    rw [gcd_step n d h0 ht] at h
    refine ih ?_ hn h
    have hr := natAbs_tmod d n
    have hlt : d.natAbs % n.natAbs < n.natAbs := Nat.mod_lt _ (Int.natAbs_pos.mpr h0)
    unfold inInt INT_MIN INT_MAX at hn ⊢
    omega

theorem iabs_inInt (x : Int) (h : inInt x) : inInt (iabs x) ∧ (iabs x).natAbs = x.natAbs := by
  unfold inInt INT_MIN INT_MAX at h ⊢
  unfold iabs wrap
  split <;> omega

theorem neg_iabs_inInt (x : Int) (h : inInt x) :
    inInt (wrap (-(iabs x))) ∧ (wrap (-(iabs x))).natAbs = x.natAbs := by
  unfold inInt INT_MIN INT_MAX at h ⊢
  unfold iabs wrap
  split <;> omega

/-- The quotient of ints on which `/` does not fault is an int. -/
theorem tdiv_inInt (a b : Int) (ha : inInt a) (ht : ¬ divTraps a b) : inInt (Int.tdiv a b) := by
  have hq : (Int.tdiv a b).natAbs = a.natAbs / b.natAbs := Int.natAbs_tdiv a b
  unfold divTraps at ht
  by_cases h1 : b = 1
  · rw [h1, Int.tdiv_one]; exact ha
  · by_cases h2 : b = -1
    · have hne : a ≠ INT_MIN := fun hc => ht (Or.inr ⟨hc, h2⟩)
      have e : Int.tdiv a (-1) = -a := by
        have := Int.tdiv_neg a 1
        rw [Int.tdiv_one] at this
        exact this
      rw [h2, e]
      unfold inInt INT_MIN INT_MAX at ha ⊢
      unfold INT_MIN at hne
      omega
    · have hb2 : 2 ≤ b.natAbs := by omega
      have hle : a.natAbs / b.natAbs ≤ a.natAbs / 2 :=
        Nat.div_le_div_left hb2 (by decide)
      unfold inInt INT_MIN INT_MAX at ha ⊢
      omega

/-- What a successful call of the constructor went through. -/
theorem ctor_ok_inv (n d : Int) (f : Fraction) (h : Fraction.ctor n d = .ok f) :
    d ≠ 0 ∧ ∃ g, gcd n d = .ok g ∧ ¬ divTraps n (iabs g) ∧ ¬ divTraps d (iabs g) ∧
      f = { numerator :=
              if xor (decide (n < 0)) (decide (d < 0))
              then wrap (-(iabs (Int.tdiv n (iabs g)))) else iabs (Int.tdiv n (iabs g)),
            denominator := iabs (Int.tdiv d (iabs g)) } := by
  have hd0 : d ≠ 0 := by
    intro hc
    rw [hc, ctor_zero_den] at h
    cases h
  refine ⟨hd0, ?_⟩
  rcases hg : gcd n d with e | g
  · unfold Fraction.ctor at h
    rw [if_neg hd0, hg] at h
    cases h
  · have ht1 : ¬ divTraps n (iabs g) := by
      intro hc
      unfold Fraction.ctor at h
      rw [if_neg hd0, hg] at h
      simp only [idiv, hc, if_true] at h
      cases h
    have ht2 : ¬ divTraps d (iabs g) := by
      intro hc
      unfold Fraction.ctor at h
      rw [if_neg hd0, hg] at h
      simp only [idiv, hc, if_true, if_neg ht1] at h
      cases h
    refine ⟨g, rfl, ht1, ht2, ?_⟩
    rw [ctor_unfold n d g hd0 hg ht1 ht2] at h
    cases h
    rfl

/-- The fields of a fraction returned by the constructor on ints: both are
ints, the denominator is not zero, and they are not both `INT_MIN`. -/
theorem ctor_fields (n d : Int) (hn : inInt n) (hd : inInt d) (f : Fraction)
    (h : Fraction.ctor n d = .ok f) :
    inInt f.numerator ∧ inInt f.denominator ∧ f.denominator ≠ 0 ∧
      (n ≠ 0 → f.numerator ≠ 0) ∧
      ¬ (f.numerator = INT_MIN ∧ f.denominator = INT_MIN) := by
  obtain ⟨hd0, g, hg, ht1, ht2, rfl⟩ := ctor_ok_inv n d f h
  have hgn := gcd_natAbs_of_ok n d g hg
  have hgi := gcd_inInt n d g hn hd hg
  obtain ⟨hai, han⟩ := iabs_inInt g hgi
  have hdpos : 0 < d.natAbs := Int.natAbs_pos.mpr hd0
  have hGpos : 0 < Nat.gcd n.natAbs d.natAbs := Nat.gcd_pos_of_pos_right _ hdpos
  have hqn : (Int.tdiv n (iabs g)).natAbs = n.natAbs / Nat.gcd n.natAbs d.natAbs := by
    rw [Int.natAbs_tdiv, han, hgn]; rfl
  have hqd : (Int.tdiv d (iabs g)).natAbs = d.natAbs / Nat.gcd n.natAbs d.natAbs := by
    rw [Int.natAbs_tdiv, han, hgn]; rfl
  have hqni := tdiv_inInt n (iabs g) hn ht1
  have hqdi := tdiv_inInt d (iabs g) hd ht2
  obtain ⟨hn1, hn1a⟩ := iabs_inInt _ hqni
  obtain ⟨hn2, hn2a⟩ := neg_iabs_inInt _ hqni
  obtain ⟨hd1, hd1a⟩ := iabs_inInt _ hqdi
  have hBpos : 0 < d.natAbs / Nat.gcd n.natAbs d.natAbs :=
    Nat.div_pos (Nat.gcd_le_right _ hdpos) hGpos
  have hnumabs : (if xor (decide (n < 0)) (decide (d < 0))
      then wrap (-(iabs (Int.tdiv n (iabs g)))) else iabs (Int.tdiv n (iabs g))).natAbs
      = n.natAbs / Nat.gcd n.natAbs d.natAbs := by
    split
    · rw [hn2a, hqn]
    · rw [hn1a, hqn]
  refine ⟨?_, hd1, ?_, ?_, ?_⟩
  · show inInt (if _ then _ else _)
    split
    · exact hn2
    · exact hn1
  · show iabs (Int.tdiv d (iabs g)) ≠ 0
    intro hc
    rw [hc, hqd] at hd1a
    simp only [Int.natAbs_zero] at hd1a
    omega
  · intro hn0 hc
    simp only at hc
    rw [hc] at hnumabs
    simp only [Int.natAbs_zero] at hnumabs
    have hnpos : 0 < n.natAbs := Int.natAbs_pos.mpr hn0
    have := Nat.div_pos (Nat.gcd_le_left _ hnpos) hGpos
    omega
  · rintro ⟨hc1, hc2⟩
    simp only at hc1 hc2
    rw [hc1] at hnumabs
    rw [hc2, hqd] at hd1a
    have e1 : n.natAbs / Nat.gcd n.natAbs d.natAbs = 2147483648 := by
      rw [← hnumabs]; rfl
    have e2 : d.natAbs / Nat.gcd n.natAbs d.natAbs = 2147483648 := by
      rw [← hd1a]; rfl
    have m1 := Nat.div_mul_le_self n.natAbs (Nat.gcd n.natAbs d.natAbs)
    have m2 := Nat.div_mul_le_self d.natAbs (Nat.gcd n.natAbs d.natAbs)
    rw [e1] at m1
    rw [e2] at m2
    have bn : n.natAbs ≤ 2147483648 := by
      unfold inInt INT_MIN INT_MAX at hn; omega
    have bd : d.natAbs ≤ 2147483648 := by
      unfold inInt INT_MIN INT_MAX at hd; omega
    have hG1 : Nat.gcd n.natAbs d.natAbs = 1 := by
      generalize Nat.gcd n.natAbs d.natAbs = G at *
      have : G ≤ 1 := by
        by_contra hcon
        have : 2147483648 * 2 ≤ 2147483648 * G := Nat.mul_le_mul_left _ (by omega)
        omega
      omega
    rw [hG1] at m1 m2
    have en : n.natAbs = 2147483648 := by omega
    have ed : d.natAbs = 2147483648 := by omega
    rw [en, ed] at hG1
    revert hG1
    decide


/-- C11, as stated, fails at `f = Fraction(65536, 65537)`: the constructor
stores `65536/65537`, the numerator is not zero, and `f / f` throws
`overflow_error`, because `65536 * 65537` exceeds `INT_MAX`. -/
theorem div_self_overflow_counterexample :
    Fraction.ctor 65536 65537 = .ok ⟨65536, 65537⟩ ∧
    (Fraction.mk 65536 65537).numerator ≠ 0 ∧
    (Fraction.mk 65536 65537).div ⟨65536, 65537⟩ = .error .overflow_error ∧
    ¬ ((Fraction.mk 65536 65537).div ⟨65536, 65537⟩ = .ok ⟨1, 1⟩) := by
  have hdiv : (Fraction.mk 65536 65537).div ⟨65536, 65537⟩ = .error .overflow_error :=
    (div_self_of_fields ⟨65536, 65537⟩ (by decide) (by decide) (by decide) (by decide)
      (by decide)).2 (by decide)
  refine ⟨ctor_idem ⟨65536, 65537⟩ (by decide) (by decide) (by decide), by decide, hdiv, ?_⟩
  rw [hdiv]
  intro h
  cases h

/-- C11 (amended): for every fraction `f` that the integer constructor
returns, with a non-zero numerator, `f / f` returns `1/1` when
`|f.num * f.den| ≤ INT_MAX`, and throws `overflow_error` otherwise. -/
theorem div_self (n d : Int) (hn : inInt n) (hd : inInt d)
    (f : Fraction) (hf : Fraction.ctor n d = .ok f) (hnum : f.numerator ≠ 0) :
    (magFits (f.numerator * f.denominator) → f.div f = .ok ⟨1, 1⟩) ∧
    (¬ magFits (f.numerator * f.denominator) → f.div f = .error .overflow_error) := by
  obtain ⟨h1, h2, h3, _, h5⟩ := ctor_fields n d hn hd f hf
  exact div_self_of_fields f h1 h2 hnum h3 h5

/-- The amended C11 at `f = Fraction(6, -8)`, where the product fits, and at
`f = Fraction(INT_MIN, 1)`, where it does not. -/
theorem div_self_witness :
    (Fraction.ctor 6 (-8) = .ok ⟨-3, 4⟩ ∧ (Fraction.mk (-3) 4).div ⟨-3, 4⟩ = .ok ⟨1, 1⟩) ∧
    (Fraction.ctor INT_MIN 1 = .ok ⟨INT_MIN, 1⟩ ∧
      (Fraction.mk INT_MIN 1).div ⟨INT_MIN, 1⟩ = .error .overflow_error) := by
  have hc : Fraction.ctor 6 (-8) = .ok ⟨-3, 4⟩ := by
    obtain ⟨g, hg, hnorm, hv, _, _⟩ :=
      ctor_spec 6 (-8) (by decide) (by decide) (by decide)
    rw [hg]
    congr 1
    exact normalized_same_value g ⟨-3, 4⟩ 6 (-8) (-3) 4 hnorm (by decide) (by decide)
      (by decide) hv (by decide) (by decide)
  have hg1 : gcd INT_MIN 1 = .ok 1 := by
    rw [gcd_eval INT_MIN 1 1 (by decide) (by decide) (by decide),
      gcd_eval 1 INT_MIN 0 (by decide) (by decide) (by decide), gcd_zero]
  have hm : Fraction.ctor INT_MIN 1 = .ok ⟨INT_MIN, 1⟩ := by
    rw [ctor_unfold INT_MIN 1 1 (by decide) hg1 (by decide) (by decide)]
    rfl
  exact ⟨⟨hc, (div_self 6 (-8) (by decide) (by decide) ⟨-3, 4⟩ hc (by decide)).1 (by decide)⟩,
    ⟨hm, (div_self INT_MIN 1 (by decide) (by decide) ⟨INT_MIN, 1⟩ hm (by decide)).2
      (by decide)⟩⟩


/-! ## The float constructor -/

/-- What `Fraction(float)` stores for a non-zero `number` whose scaled
product truncates to the int `s`, when `s` converts to `float` and back
without change and the float quotient of `s` by a divisor is not rounded. -/
theorem ofFloat_eq {F : Type} (c : FloatConv F) (number : F) (s : Int)
    (hnz : c.isZero number = false) (hs : c.toInt (c.mul1000 number) = s) (hin : inInt s)
    (hconv : c.toInt (c.ofInt s) = s)
    (hdiv : ∀ g : Int, 0 < g → g ∣ s → c.toInt (c.divInt (c.ofInt s) g) = s / g) :
    Fraction.ofFloat c number = .ok
      { numerator := s / (Int.gcd s 1000 : Int), denominator := 1000 / (Int.gcd s 1000 : Int) } := by
  obtain ⟨g, hg, hgn⟩ := gcd_total s 1000 hin (by decide) (by
    rintro ⟨_, h⟩; revert h; decide) (by
    rintro ⟨_, h⟩; revert h; decide)
  have hG : Nat.gcd s.natAbs (1000 : Int).natAbs = Int.gcd s 1000 := rfl
  rw [hG] at hgn
  have hGpos : 0 < Int.gcd s 1000 := Int.gcd_pos_of_ne_zero_right s (by decide)
  have hGle : Int.gcd s 1000 ≤ 1000 := by
    have : Int.gcd s 1000 ∣ 1000 := by
      have := Int.gcd_dvd_right (a := s) (b := 1000)
      exact_mod_cast Int.natAbs_dvd_natAbs.mpr this
    exact Nat.le_of_dvd (by decide) this
  have hia : iabs g = (Int.gcd s 1000 : Int) := by
    rw [iabs_eq_natAbs g (by omega), hgn]
  have ht : ¬ divTraps 1000 (iabs g) := by
    unfold divTraps; rw [hia]; omega
  have hq : Int.tdiv 1000 (Int.gcd s 1000 : Int) = 1000 / (Int.gcd s 1000 : Int) :=
    Int.tdiv_eq_ediv (by decide) (by omega)
  rw [hia] at ht
  unfold Fraction.ofFloat
  rw [hnz]
  simp only [Bool.false_eq_true, if_false, hs, hconv, hg, idiv, hia, if_neg ht, hq]
  rw [hdiv _ (by exact_mod_cast hGpos) (Int.gcd_dvd_left)]

/-- The exact instance satisfies the two conversion laws. -/
theorem exactConv_laws (s : Int) :
    exactConv.toInt (exactConv.ofInt s) = s ∧
    (∀ g : Int, 0 < g → g ∣ s →
      exactConv.toInt (exactConv.divInt (exactConv.ofInt s) g) = s / g) := by
  constructor
  · simp [exactConv]
  · rintro g hg ⟨k, rfl⟩
    have hg' : (g : ℚ) ≠ 0 := by exact_mod_cast ne_of_gt hg
    have h1 : ((g * k : Int) : ℚ) / (g : ℚ) = ((k : Int) : ℚ) := by
      push_cast
      field_simp
    show Int.tdiv (((g * k : Int) : ℚ) / (g : ℚ)).num (((g * k : Int) : ℚ) / (g : ℚ)).den = _
    rw [h1, Int.mul_ediv_cancel_left _ (ne_of_gt hg)]
    simp


/-- C17: for a non-zero float `x` whose product `x * 1000` truncates to the
int `s`, `Fraction(x)` stores numerator `s / g` and denominator `1000 / g`
with `g = gcd(|s|, 1000)`: the denominator is a positive divisor of 1000, the
pair is in lowest terms, its value is exactly `s / 1000`, and `s = 0` gives
`0/1`. The float arithmetic enters through two facts, taken as hypotheses:
`s` converts to `float` and back without change, and the float quotient of
`s` by one of its divisors is exact. -/
theorem ofFloat_correct {F : Type} (c : FloatConv F) (number : F) (s : Int)
    (hnz : c.isZero number = false) (hs : c.toInt (c.mul1000 number) = s) (hin : inInt s)
    (hconv : c.toInt (c.ofInt s) = s)
    (hdiv : ∀ g : Int, 0 < g → g ∣ s → c.toInt (c.divInt (c.ofInt s) g) = s / g) :
    ∃ f, Fraction.ofFloat c number = .ok f ∧
      f.numerator = s / (Int.gcd s 1000 : Int) ∧
      f.denominator = 1000 / (Int.gcd s 1000 : Int) ∧
      0 < f.denominator ∧ f.denominator ∣ 1000 ∧
      Nat.gcd f.numerator.natAbs f.denominator.natAbs = 1 ∧
      (f.numerator : ℚ) / (f.denominator : ℚ) = (s : ℚ) / 1000 ∧
      (s = 0 → f = ⟨0, 1⟩) := by
  refine ⟨_, ofFloat_eq c number s hnz hs hin hconv hdiv, rfl, rfl, ?_⟩
  have hGpos : 0 < Int.gcd s 1000 := Int.gcd_pos_of_ne_zero_right s (by decide)
  have hGpos' : (0 : Int) < (Int.gcd s 1000 : Int) := by exact_mod_cast hGpos
  have hN : s / (Int.gcd s 1000 : Int) * (Int.gcd s 1000 : Int) = s :=
    Int.ediv_mul_cancel Int.gcd_dvd_left
  have hD : 1000 / (Int.gcd s 1000 : Int) * (Int.gcd s 1000 : Int) = 1000 :=
    Int.ediv_mul_cancel Int.gcd_dvd_right
  have hDpos : 0 < 1000 / (Int.gcd s 1000 : Int) := by
    by_contra hneg
    have : 1000 / (Int.gcd s 1000 : Int) * (Int.gcd s 1000 : Int) ≤ 0 :=
      mul_nonpos_of_nonpos_of_nonneg (not_lt.mp hneg) (le_of_lt hGpos')
    omega
  have hcross : s / (Int.gcd s 1000 : Int) * 1000 = s * (1000 / (Int.gcd s 1000 : Int)) := by
    linear_combination (1000 / (Int.gcd s 1000 : Int)) * hN
      - (s / (Int.gcd s 1000 : Int)) * hD
  refine ⟨hDpos, ⟨(Int.gcd s 1000 : Int), hD.symm⟩, Int.gcd_div_gcd_div_gcd hGpos, ?_, ?_⟩
  · have := ratio_of_cross _ _ s 1000 hDpos (by decide) hcross
    simpa using this
  · intro h0
    subst h0
    decide

/-- C17 at `1.25` and at `2.0`, with exact rational arithmetic standing for
the floats: the stored pairs are `5/4` and `2/1`. -/
theorem ofFloat_correct_witness :
    Fraction.ofFloat exactConv (5 / 4) = .ok ⟨5, 4⟩ ∧
    Fraction.ofFloat exactConv 2 = .ok ⟨2, 1⟩ := by
  have e1 : exactConv.mul1000 (5 / 4) = exactConv.ofInt 1250 := by
    show (5 / 4 : ℚ) * 1000 = ((1250 : Int) : ℚ)
    norm_num
  have e2 : exactConv.mul1000 2 = exactConv.ofInt 2000 := by
    show (2 : ℚ) * 1000 = ((2000 : Int) : ℚ)
    norm_num
  obtain ⟨f, hf, hn, hd, _⟩ := ofFloat_correct exactConv (5 / 4) 1250
    (by simp [exactConv]) (by rw [e1]; exact (exactConv_laws 1250).1) (by decide)
    (exactConv_laws 1250).1 (exactConv_laws 1250).2
  obtain ⟨g, hg, hn2, hd2, _⟩ := ofFloat_correct exactConv 2 2000
    (by simp [exactConv]) (by rw [e2]; exact (exactConv_laws 2000).1) (by decide)
    (exactConv_laws 2000).1 (exactConv_laws 2000).2
  have h1 : f = ⟨5, 4⟩ := by
    obtain ⟨a, b⟩ := f
    simp only at hn hd
    rw [hn, hd]
    decide
  have h2 : g = ⟨2, 1⟩ := by
    obtain ⟨a, b⟩ := g
    simp only at hn2 hd2
    rw [hn2, hd2]
    decide
  rw [← h1, ← h2]
  exact ⟨hf, hg⟩

/-! ## Mixed division -/

/-- The float constructor can only end early by the division fault. -/
theorem ofFloat_error {F : Type} (c : FloatConv F) (number : F) (e : Error)
    (h : Fraction.ofFloat c number = .error e) : e = .sigfpe := by
  unfold Fraction.ofFloat at h
  split at h
  · cases h
  · dsimp only at h
    split at h
    · rename_i e1 hg
      cases h
      exact gcd_error _ _ _ hg
    · split at h
      · rename_i e1 h1
        cases h
        exact idiv_error _ _ _ h1
      · cases h

/-- C18 fails on the code: for a divisor with numerator 0 the mixed
`x / f` never throws the `runtime_error` of `Fraction / Fraction`. When the
float constructor returns, the zero denominator `num.den * 0` reaches the
integer constructor, which throws `invalid_argument`; at `1.0f / Fraction(0,1)`
(exact rational arithmetic standing for the floats) that is the result,
while `Fraction(1,1) / Fraction(0,1)` throws `runtime_error`. -/
theorem floatDiv_zero_numerator {F : Type} (c : FloatConv F) (x : F) (d : Int) :
    (floatDiv c x ⟨0, d⟩ =
      match Fraction.ofFloat c x with
      | .ok _ => .error .invalid_argument
      | .error e => .error e) ∧
    floatDiv c x ⟨0, d⟩ ≠ .error .runtime_error ∧
    Fraction.ctor 0 1 = .ok ⟨0, 1⟩ ∧
    floatDiv exactConv 1 ⟨0, 1⟩ = .error .invalid_argument ∧
    (Fraction.mk 1 1).div ⟨0, 1⟩ = .error .runtime_error := by
  have hgen : ∀ {G : Type} (c : FloatConv G) (x : G) (d : Int),
      floatDiv c x ⟨0, d⟩ =
      match Fraction.ofFloat c x with
      | .ok _ => .error .invalid_argument
      | .error e => .error e := by
    intro G c x d
    unfold floatDiv
    cases Fraction.ofFloat c x with
    | error e => rfl
    | ok num =>
      have hw : wrap (num.denominator * 0) = 0 := by rw [mul_zero]; decide
      simp only [hw]
      exact ctor_zero_den _
  have e1 : exactConv.mul1000 1 = exactConv.ofInt 1000 := by
    show (1 : ℚ) * 1000 = ((1000 : Int) : ℚ)
    norm_num
  have hone : Fraction.ofFloat exactConv 1 = .ok
      { numerator := 1000 / (Int.gcd 1000 1000 : Int),
        denominator := 1000 / (Int.gcd 1000 1000 : Int) } :=
    ofFloat_eq exactConv 1 1000 (by simp [exactConv])
      (by rw [e1]; exact (exactConv_laws 1000).1) (by decide)
      (exactConv_laws 1000).1 (exactConv_laws 1000).2
  refine ⟨hgen c x d, ?_, ctor_idem ⟨0, 1⟩ (by decide) (by decide) (by decide), ?_, ?_⟩
  · rw [hgen c x d]
    cases hx : Fraction.ofFloat c x with
    | error e =>
      have := ofFloat_error c x e hx
      subst this
      simp
    | ok num => simp
  · rw [hgen exactConv 1 1, hone]
  · unfold Fraction.div
    rw [if_pos rfl]


/-! ## Stream extraction -/

theorem isDigit_not_space (c : Char) (h : c.isDigit = true) : isSpace c = false := by
  unfold Char.isDigit at h
  simp only [Bool.and_eq_true, decide_eq_true_eq, ge_iff_le] at h
  obtain ⟨h1, _⟩ := h
  have h48 : 48 ≤ c.toNat := h1
  unfold isSpace
  have hne : c ≠ ' ' := by
    rintro rfl
    revert h48
    decide
  simp only [hne, decide_False, Bool.false_or, Bool.and_eq_false_imp, decide_eq_true_eq,
    decide_eq_false_iff_not, not_le]
  omega

theorem isDigit_not_sign (c : Char) (h : c.isDigit = true) : c ≠ '-' ∧ c ≠ '+' := by
  constructor <;>
  · rintro rfl
    revert h
    decide

theorem takeWhile_digits (ds rest : List Char) (hds : ds.all Char.isDigit = true)
    (hrest : ∀ c ∈ rest.head?, c.isDigit = false) :
    (ds ++ rest).takeWhile Char.isDigit = ds ∧ (ds ++ rest).dropWhile Char.isDigit = rest := by
  induction ds with
  | nil =>
    cases rest with
    | nil => exact ⟨rfl, rfl⟩
    | cons c t =>
      have hc : c.isDigit = false := hrest c rfl
      exact ⟨by rw [List.nil_append, List.takeWhile_cons, hc]; rfl,
        by rw [List.nil_append, List.dropWhile_cons, hc]; rfl⟩
  | cons d ds ih =>
    simp only [List.all_cons, Bool.and_eq_true] at hds
    obtain ⟨h1, h2⟩ := ih hds.2
    constructor
    · rw [List.cons_append, List.takeWhile_cons, hds.1, if_pos rfl, h1]
    · rw [List.cons_append, List.dropWhile_cons, hds.1, if_pos rfl, h2]

/-- Extraction of an int from a good stream whose first character is not
white space, in terms of the digits read and of what follows them. -/
theorem extractInt_cons (c : Char) (t body ds rest : List Char) (v : Int)
    (hsp : isSpace c = false)
    (hbody : (if c = '-' ∨ c = '+' then t else c :: t) = body)
    (ht : body.takeWhile Char.isDigit = ds) (hdr : body.dropWhile Char.isDigit = rest)
    (hne : ds.isEmpty = false)
    (hv : (if c = '-' then -(digitsVal ds : Int) else (digitsVal ds : Int)) = v)
    (hin : inInt v) :
    InStream.extractInt ⟨c :: t, false, false⟩ = (⟨rest, false, rest.isEmpty⟩, some v) := by
  have hdw : List.dropWhile isSpace (c :: t) = c :: t := by
    rw [List.dropWhile_cons, hsp]; rfl
  have hin1 : ¬ (v > INT_MAX) := by unfold inInt at hin; omega
  have hin2 : ¬ (v < INT_MIN) := by unfold inInt at hin; omega
  unfold InStream.extractInt InStream.good
  simp only [Bool.not_false, Bool.and_self, Bool.not_true, Bool.false_eq_true, if_false, hdw]
  rw [hbody, ht, hdr, hne, hv]
  simp only [Bool.false_eq_true, if_false, hin1, hin2]

/-- Extraction of an int from a good stream that starts with the text of an
int within range, followed by the end of the input or by a character that is
not a digit. -/
theorem extractInt_intText (neg : Bool) (ds rest : List Char) (hne : ds ≠ [])
    (hds : ds.all Char.isDigit = true) (hrest : ∀ c ∈ rest.head?, c.isDigit = false)
    (hin : inInt (intVal neg ds)) :
    InStream.extractInt ⟨intText neg ds ++ rest, false, false⟩
      = (⟨rest, false, rest.isEmpty⟩, some (intVal neg ds)) := by
  obtain ⟨d, ds', rfl⟩ : ∃ d ds', ds = d :: ds' := by
    cases ds with
    | nil => exact absurd rfl hne
    | cons d ds' => exact ⟨d, ds', rfl⟩
  have hd : d.isDigit = true := by
    simp only [List.all_cons, Bool.and_eq_true] at hds
    exact hds.1
  obtain ⟨ht, hdr⟩ := takeWhile_digits (d :: ds') rest hds hrest
  cases neg with
  | true =>
    exact extractInt_cons '-' (d :: ds' ++ rest) (d :: ds' ++ rest) (d :: ds') rest _
      (by decide) (by simp) ht hdr rfl (by simp [intVal]) hin
  | false =>
    obtain ⟨hm, hp⟩ := isDigit_not_sign d hd
    exact extractInt_cons d (ds' ++ rest) (d :: ds' ++ rest) (d :: ds') rest _
      (isDigit_not_space d hd) (by simp [hm, hp]) ht hdr rfl (by simp [intVal, hm]) hin


/-- C19: on an input made of the text of an int `n`, one separator character
that is neither a digit nor `'.'`, and the text of an int `d ≠ 0`, stream
extraction succeeds and stores exactly the numerator `n` and the denominator
`d`, with no reduction and no sign normalization. -/
theorem extract_correct (neg1 neg2 : Bool) (ds es : List Char) (sep : Char)
    (fraction : Fraction) (uninit : Int)
    (hds : ds ≠ []) (hds1 : ds.all Char.isDigit = true)
    (hes : es ≠ []) (hes1 : es.all Char.isDigit = true)
    (hsep1 : sep.isDigit = false) (hsep2 : sep ≠ '.')
    (hn : inInt (intVal neg1 ds)) (hd : inInt (intVal neg2 es))
    (hd0 : intVal neg2 es ≠ 0) :
    Fraction.extract ⟨intText neg1 ds ++ sep :: intText neg2 es, false, false⟩ fraction uninit
      = .ok (⟨[], false, true⟩, ⟨intVal neg1 ds, intVal neg2 es⟩) := by
  have h1 := extractInt_intText neg1 ds (sep :: intText neg2 es) hds hds1
    (by intro c hc; cases hc; exact hsep1) hn
  have h2 := extractInt_intText neg2 es [] hes hes1 (by intro c hc; cases hc) hd
  rw [List.append_nil] at h2
  have hsep3 : ¬ (some sep = some '.') := by
    intro h; cases h; exact hsep2 rfl
  unfold Fraction.extract
  simp only [h1, List.isEmpty_cons, InStream.peek, InStream.good, Bool.not_false,
    Bool.and_self, Bool.not_true, Bool.false_eq_true, if_false, hsep3, InStream.ignore1, h2,
    List.isEmpty_nil, hd0]

/-- C19 at the inputs `3/4`, `6/8` and the text of `1`, `/`, `-2`. -/
theorem extract_correct_witness :
    Fraction.extract ⟨['3', '/', '4'], false, false⟩ ⟨0, 1⟩ 0
      = .ok (⟨[], false, true⟩, ⟨3, 4⟩) ∧
    Fraction.extract ⟨['6', '/', '8'], false, false⟩ ⟨0, 1⟩ 0
      = .ok (⟨[], false, true⟩, ⟨6, 8⟩) ∧
    Fraction.extract ⟨['1', '/', '-', '2'], false, false⟩ ⟨0, 1⟩ 0
      = .ok (⟨[], false, true⟩, ⟨1, -2⟩) :=
  ⟨extract_correct false false ['3'] ['4'] '/' ⟨0, 1⟩ 0 (by decide) (by decide) (by decide)
      (by decide) (by decide) (by decide) (by decide) (by decide) (by decide),
    extract_correct false false ['6'] ['8'] '/' ⟨0, 1⟩ 0 (by decide) (by decide) (by decide)
      (by decide) (by decide) (by decide) (by decide) (by decide) (by decide),
    extract_correct false true ['1'] ['2'] '/' ⟨0, 1⟩ 0 (by decide) (by decide) (by decide)
      (by decide) (by decide) (by decide) (by decide) (by decide) (by decide)⟩



/-! ## Mixed multiplication -/

/-- Whenever `operator*` returns, its result is what the constructor returns
for the two wrapped products. -/
theorem mul_ok_inv (a b r : Fraction) (h : a.mul b = .ok r) :
    Fraction.ctor (wrap (a.numerator * b.numerator)) (wrap (a.denominator * b.denominator))
      = .ok r := by
  unfold Fraction.mul at h
  dsimp only at h
  split at h
  · cases h
  · cases h
  · exact h

/-- C21: the unchecked mixed multiplication agrees with the checked one.
Whenever `Fraction(x)` is returned as `num` and `num * f` returns a fraction,
`x * f` returns a fraction with exactly the same numerator and denominator. -/
theorem floatMul_agrees {F : Type} (c : FloatConv F) (x : F) (f num r : Fraction)
    (hx : Fraction.ofFloat c x = .ok num) (hm : num.mul f = .ok r) :
    floatMul c x f = .ok r := by
  unfold floatMul
  rw [hx]
  exact mul_ok_inv num f r hm

/-- C21 at `1.25 * Fraction(1,2)`, with exact rational arithmetic standing
for the floats: both products are `5/8`. -/
theorem floatMul_agrees_witness :
    Fraction.ofFloat exactConv (5 / 4) = .ok ⟨5, 4⟩ ∧
    (Fraction.mk 5 4).mul ⟨1, 2⟩ = .ok ⟨5, 8⟩ ∧
    floatMul exactConv (5 / 4) ⟨1, 2⟩ = .ok ⟨5, 8⟩ := by
  have e1 : exactConv.mul1000 (5 / 4) = exactConv.ofInt 1250 := by
    show (5 / 4 : ℚ) * 1000 = ((1250 : Int) : ℚ)
    norm_num
  have hx : Fraction.ofFloat exactConv (5 / 4) = .ok ⟨5, 4⟩ := by
    rw [ofFloat_eq exactConv (5 / 4) 1250 (by simp [exactConv])
      (by rw [e1]; exact (exactConv_laws 1250).1) (by decide)
      (exactConv_laws 1250).1 (exactConv_laws 1250).2]
    have hp : (Fraction.mk (1250 / (Int.gcd 1250 1000 : Int)) (1000 / (Int.gcd 1250 1000 : Int)))
        = ⟨5, 4⟩ := by decide
    rw [hp]
  have hm : (Fraction.mk 5 4).mul ⟨1, 2⟩ = .ok ⟨5, 8⟩ := by
    rw [mul_eq_ctor ⟨5, 4⟩ ⟨1, 2⟩ (by decide) (by decide) (by decide) (by decide)]
    exact ctor_idem ⟨5, 8⟩ (by decide) (by decide) (by decide)
  exact ⟨hx, hm, floatMul_agrees exactConv (5 / 4) ⟨1, 2⟩ ⟨5, 4⟩ ⟨5, 8⟩ hx hm⟩

/-! ## Termination and value of the gcd helper -/

/-- The bounded run agrees with the helper as soon as the bound exceeds the
magnitude of the first argument. -/
theorem gcdFuel_eq (fuel : Nat) (n d : Int) (h : n.natAbs < fuel) :
    gcdFuel fuel n d = some (gcd n d) := by
  induction fuel generalizing n d with
  | zero => exact absurd h (Nat.not_lt_zero _)
  | succ k ih =>
    unfold gcdFuel
    by_cases h0 : n = 0
    · rw [if_pos h0, h0, gcd_zero]
    · rw [if_neg h0]
      by_cases ht : divTraps d n
      · rw [if_pos ht, gcd_trap n d h0 ht]
      · rw [if_neg ht, gcd_step n d h0 ht]
        apply ih
        rw [natAbs_tmod]
        have := Nat.mod_lt d.natAbs (Int.natAbs_pos.mpr h0)
        omega

/-- C22: the recursive gcd helper terminates for every pair of ints, because
the magnitude of its first argument strictly decreases from one call to the
next: a run bounded by `|n| + 1` calls ends. For `n`, `d` of magnitude at most
`INT_MAX` it returns a value whose absolute value is the greatest common
divisor of `|n|` and `|d|`: it divides `n` and `d`, every common divisor
divides it, and it is not zero when `d ≠ 0`. -/
theorem gcd_terminates (n d : Int) :
    (n ≠ 0 → (Int.tmod d n).natAbs < n.natAbs) ∧
    gcdFuel (n.natAbs + 1) n d = some (gcd n d) ∧
    (magFits n → magFits d →
      ∃ g, gcd n d = .ok g ∧ g.natAbs = Nat.gcd n.natAbs d.natAbs ∧
        (d ≠ 0 → g ≠ 0) ∧ g ∣ n ∧ g ∣ d ∧ ∀ k : Int, k ∣ n → k ∣ d → k ∣ g) := by
  refine ⟨fun h0 => ?_, gcdFuel_eq _ n d (Nat.lt_succ_self _), fun hn hd => ?_⟩
  · rw [natAbs_tmod]
    exact Nat.mod_lt _ (Int.natAbs_pos.mpr h0)
  · have hn' := magFits_natAbs n hn
    have hd' := magFits_natAbs d hd
    obtain ⟨g, hg, hgn⟩ := gcd_ok n d (by omega) (by
      rintro ⟨h1, _⟩
      rw [h1] at hd'
      revert hd'
      decide)
    refine ⟨g, hg, hgn, ?_, ?_, ?_, ?_⟩
    · intro hd0 hg0
      rw [hg0] at hgn
      have := Nat.gcd_pos_of_pos_right n.natAbs (Int.natAbs_pos.mpr hd0)
      simp only [Int.natAbs_zero] at hgn
      omega
    · apply Int.natAbs_dvd_natAbs.mp
      rw [hgn]
      exact Nat.gcd_dvd_left _ _
    · apply Int.natAbs_dvd_natAbs.mp
      rw [hgn]
      exact Nat.gcd_dvd_right _ _
    · intro k hkn hkd
      apply Int.natAbs_dvd_natAbs.mp
      rw [hgn]
      exact Nat.dvd_gcd (Int.natAbs_dvd_natAbs.mpr hkn) (Int.natAbs_dvd_natAbs.mpr hkd)

/-- C22 at `gcd(-6, 8)`, whose result has absolute value 2. -/
theorem gcd_terminates_witness :
    (Int.tmod 8 (-6)).natAbs < (-6 : Int).natAbs ∧
    gcdFuel ((-6 : Int).natAbs + 1) (-6) 8 = some (gcd (-6) 8) ∧
    ∃ g, gcd (-6) 8 = .ok g ∧ g.natAbs = Nat.gcd (-6 : Int).natAbs (8 : Int).natAbs ∧
      ((8 : Int) ≠ 0 → g ≠ 0) ∧ g ∣ -6 ∧ g ∣ 8 ∧ ∀ k : Int, k ∣ -6 → k ∣ 8 → k ∣ g :=
  ⟨(gcd_terminates (-6) 8).1 (by decide), (gcd_terminates (-6) 8).2.1,
    (gcd_terminates (-6) 8).2.2 (by decide) (by decide)⟩


end ariel
